import Mathlib

/-!
# A verification development for `pq`, a binary min-heap priority queue

The Go package `pq` (file `pq.go`) stores key/value entries in a slice that is
read as a binary tree: the parent of index `i` is `(i - 1) / 2`, its children
are `2 * i + 1` and `2 * i + 2`.

## Embedding

* The slice `q.items` is a `List (item K V)`; an index expression `q.items[j]`
  is a checked read (`items[j]?`), and a read outside the slice is the Go
  run-time panic `Fault.indexOutOfRange`.
* A method with a pointer receiver is a function from the queue before the call
  to a pair: what the call produced (`Except Fault _`, where `.error` is a
  panic) and the queue after the call.  The queue is returned on a panic as
  well, so that "a failing call changed nothing" is a statement about the code
  and not about the shape of the model.
* The two loops (`for i > 0 { ... }` in `siftUp`, `for { ... }` in `siftDown`)
  are recursive functions on a step budget.  `Fault.outOfFuel` is what a loop
  that used up its budget returns; the budgets handed out by `siftUp` and
  `siftDown` are shown never to be used up.
* Go's `int` indices are natural numbers: an index is below the length of a
  slice that exists in memory, so `2 * i + 2` stays far below the range of `int`.
  The statements about `siftUp(i)` and `siftDown(i)` are made for `i` inside the
  array only.
* The key type only has to offer decidable `<` and `<=`, as `cmp.Ordered` does;
  the theorems on ordering assume a linear order.
* The zero value of a Go type is `default` of an `Inhabited` type.
* `float64` keys are `GoFloat E`: NaN, or a number of a linearly ordered type
  `E`; `<` and `<=` are false as soon as an operand is NaN.
* `EnqueueRef` is a second description of `Enqueue`, written after the
  specification and compared with the code; `DequeueWith` is `Dequeue` with the
  call of `siftDown` as a parameter.
-/

set_option linter.unusedSectionVars false

namespace pq

/-- The ways a call can stop without returning. -/
inductive Fault where
  /-- `panic("Dequeue performed on an empty priority queue")` -/
  | emptyDequeue
  /-- `panic("Peek performed on an empty priority queue")` -/
  | emptyPeek
  /-- Go's run-time panic for an index outside a slice. -/
  | indexOutOfRange
  /-- The step budget of a loop of the model was used up. -/
  | outOfFuel
  deriving DecidableEq, Repr

/-- The struct `item[K, V]`: the key and value of one entry. -/
structure item (K V : Type) where
  Key : K
  Value : V
  deriving DecidableEq, Repr

/-- The struct `Queue[K, V]`: its only field is the slice `items`. -/
structure Queue (K V : Type) where
  items : List (item K V)
  deriving DecidableEq, Repr

section Code

variable {K V : Type}

/-- `NewQueue`: a queue whose slice is `make([]item[K, V], 0)`. -/
def NewQueue : Queue K V :=
  { items := [] }

/-- `Count`: `len(q.items)`. -/
def Count (q : Queue K V) : Nat :=
  q.items.length

/-- `IsEmpty`: `len(q.items) == 0`. -/
def IsEmpty (q : Queue K V) : Bool :=
  decide (q.items.length = 0)

/-- The index expression `q.items[j]` as a read. -/
def readAt (items : List (item K V)) (j : Nat) : Except Fault (item K V) :=
  match items[j]? with
  | some x => .ok x
  | none => .error .indexOutOfRange

/-- The tuple assignment `q.items[a], q.items[b] = q.items[b], q.items[a]`:
both operands are read, then both slots are written. -/
def swapAt (items : List (item K V)) (a b : Nat) : Except Fault (List (item K V)) :=
  match items[b]?, items[a]? with
  | some y, some x => .ok ((items.set a y).set b x)
  | _, _ => .error .indexOutOfRange

variable [LE K] [LT K] [DecidableRel (LE.le : K → K → Prop)]
  [DecidableRel (LT.lt : K → K → Prop)]

/-- The condition `q.items[a].Key <= q.items[b].Key` of `siftUp`. -/
def keyLE (items : List (item K V)) (a b : Nat) : Except Fault Bool :=
  match items[a]?, items[b]? with
  | some x, some y => .ok (decide (x.Key ≤ y.Key))
  | _, _ => .error .indexOutOfRange

/-- The comparison `q.items[a].Key < q.items[b].Key` of `siftDown`. -/
def keyLT (items : List (item K V)) (a b : Nat) : Except Fault Bool :=
  match items[a]?, items[b]? with
  | some x, some y => .ok (decide (x.Key < y.Key))
  | _, _ => .error .indexOutOfRange

/-- The loop of `siftUp`, on a budget of iterations.

```go
for i > 0 {
    parent := (i - 1) / 2
    if q.items[parent].Key <= q.items[i].Key { break }
    q.items[parent], q.items[i] = q.items[i], q.items[parent]
    i = parent
}
``` -/
def siftUpLoop : Nat → List (item K V) → Nat → Except Fault Unit × List (item K V)
  | 0, items, i => if i > 0 then (.error .outOfFuel, items) else (.ok (), items)
  | fuel + 1, items, i =>
    if i > 0 then
      let parent := (i - 1) / 2
      match keyLE items parent i with
      | .error e => (.error e, items)
      | .ok true => (.ok (), items)
      | .ok false =>
        match swapAt items parent i with
        | .error e => (.error e, items)
        | .ok items1 => siftUpLoop fuel items1 parent
    else (.ok (), items)

/-- `siftUp(i)`.  The index at least halves in every iteration, so `i`
iterations are enough. -/
def siftUp (q : Queue K V) (i : Nat) : Except Fault Unit × Queue K V :=
  let r := siftUpLoop i q.items i
  (r.1, { items := r.2 })

/-- The two `if` statements of one iteration of `siftDown`, which choose `min`
among `i`, `left` and `right`; a child takes part only if its index is below
`n`, and `&&` does not read the slice otherwise.  `left` and `right` are natural
numbers: they are the values of Go's `int` for an index `i < n`, the only indices
the statements about the code are made for. -/
def selectMin (items : List (item K V)) (n i : Nat) : Except Fault Nat :=
  let left := 2 * i + 1
  let right := 2 * i + 2
  match (if left < n then keyLT items left i else .ok false) with
  | .error e => .error e
  | .ok b1 =>
    let min1 := if b1 then left else i
    match (if right < n then keyLT items right min1 else .ok false) with
    | .error e => .error e
    | .ok b2 => .ok (if b2 then right else min1)

/-- The loop of `siftDown`, on a budget of iterations; `n` is `len(q.items)`,
read once before the loop.

```go
for {
    min := i; left := 2*i + 1; right := 2*i + 2
    if left < n && q.items[left].Key < q.items[min].Key { min = left }
    if right < n && q.items[right].Key < q.items[min].Key { min = right }
    if min == i { break }
    q.items[i], q.items[min] = q.items[min], q.items[i]
    i = min
}
``` -/
def siftDownLoop : Nat → List (item K V) → Nat → Nat → Except Fault Unit × List (item K V)
  | 0, items, _, _ => (.error .outOfFuel, items)
  | fuel + 1, items, n, i =>
    match selectMin items n i with
    | .error e => (.error e, items)
    | .ok min =>
      if min = i then (.ok (), items)
      else
        match swapAt items i min with
        | .error e => (.error e, items)
        | .ok items1 => siftDownLoop fuel items1 n min

/-- `siftDown(i)`, for an index `i < len(q.items)` as `Dequeue` passes it (beyond
the array Go's `2*i + 1` can wrap around, which natural numbers do not).  The
index grows in every iteration that does not break and stays below `n`, so
`n + 1` iterations are enough. -/
def siftDown (q : Queue K V) (i : Nat) : Except Fault Unit × Queue K V :=
  let n := q.items.length
  let r := siftDownLoop (n + 1) q.items n i
  (r.1, { items := r.2 })

/-- `Enqueue(key, value)`: append the entry, then `siftUp(len(q.items) - 1)`. -/
def Enqueue (q : Queue K V) (key : K) (value : V) : Except Fault Unit × Queue K V :=
  let q1 : Queue K V := { items := q.items ++ [{ Key := key, Value := value }] }
  siftUp q1 (q1.items.length - 1)

/-- `Dequeue()`: panic on an empty queue; otherwise save the root, move the last
entry to index 0, cut the slice by one and, if entries remain, `siftDown(0)`. -/
def Dequeue (q : Queue K V) : Except Fault (K × V) × Queue K V :=
  if q.items.length = 0 then (.error .emptyDequeue, q)
  else
    match readAt q.items 0 with
    | .error e => (.error e, q)
    | .ok min =>
      let last := q.items.length - 1
      match readAt q.items last with
      | .error e => (.error e, q)
      | .ok l =>
        let q1 : Queue K V := { items := (q.items.set 0 l).take last }
        if q1.items.length > 0 then
          match siftDown q1 0 with
          | (.error e, q2) => (.error e, q2)
          | (.ok _, q2) => (.ok (min.Key, min.Value), q2)
        else (.ok (min.Key, min.Value), q1)

/-- `Peek()`: panic on an empty queue; otherwise the entry at index 0. -/
def Peek (q : Queue K V) : Except Fault (K × V) × Queue K V :=
  if q.items.length = 0 then (.error .emptyPeek, q)
  else
    match readAt q.items 0 with
    | .error e => (.error e, q)
    | .ok min => (.ok (min.Key, min.Value), q)

/-- `TryDequeue()`: zero key, zero value and `false` on an empty queue;
otherwise what `Dequeue()` returns, and `true`. -/
def TryDequeue [Inhabited K] [Inhabited V] (q : Queue K V) :
    Except Fault (K × V × Bool) × Queue K V :=
  if q.items.length = 0 then (.ok (default, default, false), q)
  else
    match Dequeue q with
    | (.error e, q1) => (.error e, q1)
    | (.ok (k, v), q1) => (.ok (k, v, true), q1)

/-- `TryPeek()`: zero key, zero value and `false` on an empty queue; otherwise
what `Peek()` returns, and `true`. -/
def TryPeek [Inhabited K] [Inhabited V] (q : Queue K V) :
    Except Fault (K × V × Bool) × Queue K V :=
  if q.items.length = 0 then (.ok (default, default, false), q)
  else
    match Peek q with
    | (.error e, q1) => (.error e, q1)
    | (.ok (k, v), q1) => (.ok (k, v, true), q1)

end Code

/-! ## Callers and properties used in the statements -/

section Defs

variable {K V : Type}

/-- The heap property of the backing array: the key at the parent `(i - 1) / 2`
is `<=` the key at `i`, for every index `i` with `1 <= i < len(items)`. -/
def HeapInv [LE K] (items : List (item K V)) : Prop :=
  ∀ (i : Nat) (h : i < items.length), 1 ≤ i →
    items[(i - 1) / 2].Key ≤ items[i].Key

/-- A `(key, value)` pair as the entry that `Enqueue` stores for it. -/
def toItem (kv : K × V) : item K V :=
  { Key := kv.1, Value := kv.2 }

variable [LE K] [LT K] [DecidableRel (LE.le : K → K → Prop)]
  [DecidableRel (LT.lt : K → K → Prop)]

/-- The queues reached from `NewQueue()` by calls of `Enqueue`, of `Dequeue` on a
non-empty queue, and of `TryDequeue`. -/
inductive Reachable [Inhabited K] [Inhabited V] : Queue K V → Prop where
  | new : Reachable NewQueue
  | enqueue (q : Queue K V) (key : K) (value : V) :
      Reachable q → Reachable (Enqueue q key value).2
  | dequeue (q : Queue K V) :
      Reachable q → IsEmpty q = false → Reachable (Dequeue q).2
  | tryDequeue (q : Queue K V) :
      Reachable q → Reachable (TryDequeue q).2

/-- `ReachedBy k m q`: the queue `q` is reached from `NewQueue()` by an
interleaving of `k` calls of `Enqueue` and `m` calls of `Dequeue`, none of them
on an empty queue. -/
inductive ReachedBy : Nat → Nat → Queue K V → Prop where
  | new : ReachedBy 0 0 NewQueue
  | enqueue (k m : Nat) (q : Queue K V) (key : K) (value : V) :
      ReachedBy k m q → ReachedBy (k + 1) m (Enqueue q key value).2
  | dequeue (k m : Nat) (q : Queue K V) :
      ReachedBy k m q → IsEmpty q = false → ReachedBy k (m + 1) (Dequeue q).2

/-- A caller that enqueues the pairs of a list in the given order, as the loop
`for _, item := range testData { q.Enqueue(item.key, item.value) }` of the
tests does. -/
def enqueueAll (q : Queue K V) : List (K × V) → Except Fault Unit × Queue K V
  | [] => (.ok (), q)
  | kv :: rest =>
    match Enqueue q kv.1 kv.2 with
    | (.error e, q1) => (.error e, q1)
    | (.ok _, q1) => enqueueAll q1 rest

/-- A caller that calls `Dequeue` until the queue is empty and collects what the
calls return, `for !q.IsEmpty() { k, v := q.Dequeue(); ... }`, on a budget of
iterations. -/
def drain : Nat → Queue K V → Except Fault (List (K × V)) × Queue K V
  | 0, q => if IsEmpty q then (.ok [], q) else (.error .outOfFuel, q)
  | fuel + 1, q =>
    if IsEmpty q then (.ok [], q)
    else
      match Dequeue q with
      | (.error e, q1) => (.error e, q1)
      | (.ok kv, q1) =>
        match drain fuel q1 with
        | (.error e, q2) => (.error e, q2)
        | (.ok out, q2) => (.ok (kv :: out), q2)

/-- `parent := (i - 1) / 2`, the index computed in `siftUp`. -/
def parent (i : Nat) : Nat :=
  (i - 1) / 2

/-- The index reached from `i` by `t` steps of `parent`: the ancestor chain
`i`, `parent(i)`, `parent(parent(i))`, ... -/
def ancestor (i t : Nat) : Nat :=
  parent^[t] i

/-- `Dequeue()` with the call `q.siftDown(0)` taken as a parameter `sd`; `Dequeue`
is `DequeueWith siftDown`.  Where the result is the same for every `sd`, no
sift-down takes part in it. -/
def DequeueWith (sd : Queue K V → Nat → Except Fault Unit × Queue K V) (q : Queue K V) :
    Except Fault (K × V) × Queue K V :=
  if q.items.length = 0 then (.error .emptyDequeue, q)
  else
    match readAt q.items 0 with
    | .error e => (.error e, q)
    | .ok min =>
      let last := q.items.length - 1
      match readAt q.items last with
      | .error e => (.error e, q)
      | .ok l =>
        let q1 : Queue K V := { items := (q.items.set 0 l).take last }
        if q1.items.length > 0 then
          match sd q1 0 with
          | (.error e, q2) => (.error e, q2)
          | (.ok _, q2) => (.ok (min.Key, min.Value), q2)
        else (.ok (min.Key, min.Value), q1)

/-- Reference for `Enqueue`, after the words of the specification: how many steps
up the ancestor chain of the new leaf the first position `j` lies that is the
root or whose parent has a key `<=` the new key `k`.  The walk starts at `j` on
a budget of steps. -/
def stopDepth (items : List (item K V)) (k : K) : Nat → Nat → Nat
  | 0, _ => 0
  | fuel + 1, j =>
    if j = 0 then 0
    else
      match items[parent j]? with
      | none => 0
      | some p => if p.Key ≤ k then 0 else stopDepth items k fuel (parent j) + 1

/-- Reference for `Enqueue`, after the words of the specification: the array of
`n + 1` entries in which the new entry stands at the stop position of its
ancestor chain, every chain position below the stop holds the entry that was at
its parent, and every other index holds the entry it held before. -/
def EnqueueRef (items : List (item K V)) (k : K) (v : V) : List (item K V) :=
  let n := items.length
  let t := stopDepth items k n n
  (List.range (n + 1)).map fun m =>
    if m = ancestor n t then { Key := k, Value := v }
    else if (List.range t).any (fun s => decide (m = ancestor n s)) then
      (items[parent m]?).getD { Key := k, Value := v }
    else (items[m]?).getD { Key := k, Value := v }

/-- Go's `float64` as the operators `<` and `<=` of the code see it: a value is
NaN or a number.  The numbers (the infinities among them; `-0` and `+0` are one
number, as they are for `==`) are linearly ordered, and that order is kept as
the parameter `E`.  Every comparison with NaN is false. -/
inductive GoFloat (E : Type) where
  | nan
  | num (e : E)
  deriving DecidableEq, Repr

/-- `a <= b` on `float64`: false if either operand is NaN. -/
def GoFloat.le {E : Type} [LE E] : GoFloat E → GoFloat E → Prop
  | .num x, .num y => x ≤ y
  | _, _ => False

/-- `a < b` on `float64`: false if either operand is NaN. -/
def GoFloat.lt {E : Type} [LT E] : GoFloat E → GoFloat E → Prop
  | .num x, .num y => x < y
  | _, _ => False

instance instLEGoFloat {E : Type} [LE E] : LE (GoFloat E) :=
  ⟨GoFloat.le⟩

instance instLTGoFloat {E : Type} [LT E] : LT (GoFloat E) :=
  ⟨GoFloat.lt⟩

instance instDecidableLEGoFloat {E : Type} [LE E] [DecidableRel (LE.le : E → E → Prop)] :
    DecidableRel (LE.le : GoFloat E → GoFloat E → Prop)
  | .num x, .num y => inferInstanceAs (Decidable (x ≤ y))
  | .nan, _ => isFalse (fun h => h)
  | .num _, .nan => isFalse (fun h => h)

instance instDecidableLTGoFloat {E : Type} [LT E] [DecidableRel (LT.lt : E → E → Prop)] :
    DecidableRel (LT.lt : GoFloat E → GoFloat E → Prop)
  | .num x, .num y => inferInstanceAs (Decidable (x < y))
  | .nan, _ => isFalse (fun h => h)
  | .num _, .nan => isFalse (fun h => h)

/-- An entry with its key carried to another key type by `f`. -/
def mapItem {K1 K2 : Type} (f : K1 → K2) (x : item K1 V) : item K2 V :=
  { Key := f x.Key, Value := x.Value }

/-- A result of `Dequeue` or `Peek` with its key carried to another key type. -/
def mapPair {K1 K2 : Type} (f : K1 → K2) (kv : K1 × V) : K2 × V :=
  (f kv.1, kv.2)

end Defs

/-! ## The loops, one iteration at a time -/

section Steps

variable {K V : Type}

theorem swapAt_ok (items : List (item K V)) (a b : Nat) (ha : a < items.length)
    (hb : b < items.length) :
    swapAt items a b = .ok ((items.set a items[b]).set b items[a]) := by
  simp [swapAt, List.getElem?_eq_getElem, ha, hb]

theorem swap_perm (items : List (item K V)) (a b : Nat) (ha : a < items.length)
    (hb : b < items.length) :
    ((items.set a items[b]).set b items[a]).Perm items := by
  classical
  rw [List.perm_iff_count]
  intro e
  rw [List.count_set _ _ _ _ (by simpa using hb), List.count_set _ _ _ _ ha]
  simp only [List.getElem_set]
  have h1 := List.count_pos_iff.mpr (List.getElem_mem ha)
  have h2 := List.count_pos_iff.mpr (List.getElem_mem hb)
  by_cases hab : a = b
  · subst hab
    simp only [if_true]
    by_cases he : items[a] = e
    · subst he; simp only [beq_self_eq_true, if_true]; omega
    · simp [he]
  · simp only [if_neg hab]
    by_cases he : items[a] = e <;> by_cases he2 : items[b] = e
    · simp only [he, he2, beq_self_eq_true, if_true]; rw [he] at h1; omega
    · simp only [he, he2, beq_self_eq_true, if_true, beq_iff_eq, if_false]
      rw [he] at h1; omega
    · simp only [he, he2, beq_self_eq_true, if_true, beq_iff_eq, if_false]
      rw [he2] at h2; omega
    · simp [he, he2]

variable [LE K] [LT K] [DecidableRel (LE.le : K → K → Prop)]
  [DecidableRel (LT.lt : K → K → Prop)]

theorem keyLE_ok (items : List (item K V)) (a b : Nat) (ha : a < items.length)
    (hb : b < items.length) :
    keyLE items a b = .ok (decide (items[a].Key ≤ items[b].Key)) := by
  simp [keyLE, List.getElem?_eq_getElem, ha, hb]

theorem keyLT_ok (items : List (item K V)) (a b : Nat) (ha : a < items.length)
    (hb : b < items.length) :
    keyLT items a b = .ok (decide (items[a].Key < items[b].Key)) := by
  simp [keyLT, List.getElem?_eq_getElem, ha, hb]

theorem siftUpLoop_root (fuel : Nat) (items : List (item K V)) :
    siftUpLoop fuel items 0 = (.ok (), items) := by
  cases fuel <;> simp [siftUpLoop]

theorem siftUpLoop_step (fuel : Nat) (items : List (item K V)) (i : Nat) (h0 : 0 < i)
    (hi : i < items.length) :
    siftUpLoop (fuel + 1) items i =
      if items[(i - 1) / 2].Key ≤ items[i].Key then (.ok (), items)
      else siftUpLoop fuel ((items.set ((i - 1) / 2) items[i]).set i
        items[(i - 1) / 2]) ((i - 1) / 2) := by
  have hp : (i - 1) / 2 < items.length := by omega
  rw [siftUpLoop, if_pos h0]
  simp only [keyLE_ok items _ _ hp hi, swapAt_ok items _ _ hp hi]
  by_cases h : items[(i - 1) / 2].Key ≤ items[i].Key <;> simp [h]

theorem siftUpLoop_ok (fuel : Nat) (items : List (item K V)) (i : Nat)
    (hi : i < items.length) (hf : i ≤ fuel) :
    ∃ items1, siftUpLoop fuel items i = (.ok (), items1) ∧ items1.Perm items := by
  induction fuel generalizing items i with
  | zero =>
    have h0 : i = 0 := by omega
    subst h0
    exact ⟨items, siftUpLoop_root 0 items, List.Perm.refl _⟩
  | succ fuel ih =>
    by_cases h0 : i = 0
    · subst h0
      exact ⟨items, siftUpLoop_root _ items, List.Perm.refl _⟩
    · have hp : (i - 1) / 2 < items.length := by omega
      rw [siftUpLoop_step fuel items i (by omega) hi]
      split
      · exact ⟨items, rfl, List.Perm.refl _⟩
      · obtain ⟨r, hr, hperm⟩ := ih ((items.set ((i - 1) / 2) items[i]).set i items[(i - 1) / 2])
          ((i - 1) / 2) (by simpa using hp) (by omega)
        exact ⟨r, hr, hperm.trans (swap_perm items _ _ hp hi)⟩

theorem selectMin_ok (items : List (item K V)) (i : Nat) (hi : i < items.length) :
    ∃ m, selectMin items items.length i = .ok m ∧ m < items.length ∧
      (m = i ∨ m = 2 * i + 1 ∨ m = 2 * i + 2) := by
  unfold selectMin
  by_cases h1 : 2 * i + 1 < items.length
  · by_cases c1 : items[2 * i + 1].Key < items[i].Key
    · by_cases h2 : 2 * i + 2 < items.length
      · by_cases c2 : items[2 * i + 2].Key < items[2 * i + 1].Key
        · exact ⟨2 * i + 2, by simp [h1, h2, keyLT_ok, hi, c1, c2], h2, by omega⟩
        · exact ⟨2 * i + 1, by simp [h1, h2, keyLT_ok, hi, c1, c2], h1, by omega⟩
      · exact ⟨2 * i + 1, by simp [h1, h2, keyLT_ok, hi, c1], h1, by omega⟩
    · by_cases h2 : 2 * i + 2 < items.length
      · by_cases c2 : items[2 * i + 2].Key < items[i].Key
        · exact ⟨2 * i + 2, by simp [h1, h2, keyLT_ok, hi, c1, c2], h2, by omega⟩
        · exact ⟨i, by simp [h1, h2, keyLT_ok, hi, c1, c2], hi, by omega⟩
      · exact ⟨i, by simp [h1, h2, keyLT_ok, hi, c1], hi, by omega⟩
  · have h2 : ¬ 2 * i + 2 < items.length := by omega
    exact ⟨i, by simp [h1, h2], hi, by omega⟩

theorem siftDownLoop_step (fuel : Nat) (items : List (item K V)) (i m : Nat)
    (hi : i < items.length) (hm : m < items.length)
    (hsel : selectMin items items.length i = .ok m) :
    siftDownLoop (fuel + 1) items items.length i =
      if m = i then (.ok (), items)
      else siftDownLoop fuel ((items.set i items[m]).set m items[i]) items.length m := by
  rw [siftDownLoop, hsel]
  simp only [swapAt_ok items _ _ hi hm]

theorem siftDownLoop_ok (fuel : Nat) (items : List (item K V)) (i : Nat)
    (hi : i < items.length) (hf : items.length - i ≤ fuel) :
    ∃ items1, siftDownLoop fuel items items.length i = (.ok (), items1) ∧
      items1.Perm items := by
  induction fuel generalizing items i with
  | zero => omega
  | succ fuel ih =>
    obtain ⟨m, hsel, hm, hcase⟩ := selectMin_ok items i hi
    rw [siftDownLoop_step fuel items i m hi hm hsel]
    split
    · exact ⟨items, rfl, List.Perm.refl _⟩
    · rename_i hne
      have hlen : ((items.set i items[m]).set m items[i]).length = items.length := by simp
      obtain ⟨r, hr, hperm⟩ := ih ((items.set i items[m]).set m items[i]) m
        (by rw [hlen]; exact hm) (by rw [hlen]; omega)
      rw [hlen] at hr
      exact ⟨r, hr, hperm.trans (swap_perm items _ _ hi hm)⟩

end Steps

/-! ## Sift-up restores the heap property -/

section Heap

variable {K V : Type}

theorem swap_get_fst (items : List (item K V)) (a b : Nat) (ha : a < items.length)
    (hb : b < items.length) (hne : a ≠ b) {h : a < ((items.set a items[b]).set b items[a]).length} :
    ((items.set a items[b]).set b items[a])[a] = items[b] := by
  simp [List.getElem_set, hne, Ne.symm hne]

theorem swap_get_snd (items : List (item K V)) (a b : Nat) (ha : a < items.length)
    (hb : b < items.length) {h : b < ((items.set a items[b]).set b items[a]).length} :
    ((items.set a items[b]).set b items[a])[b] = items[a] := by
  simp [List.getElem_set]

theorem swap_get_other (items : List (item K V)) (a b k : Nat) (ha : a < items.length)
    (hb : b < items.length) (hk : k < items.length) (hka : k ≠ a) (hkb : k ≠ b)
    {h : k < ((items.set a items[b]).set b items[a]).length} :
    ((items.set a items[b]).set b items[a])[k] = items[k] := by
  simp [List.getElem_set, Ne.symm hka, Ne.symm hkb]

variable [LinearOrder K]

/-- The heap property with the parent index as a variable of its own. -/
theorem heapInv_iff (items : List (item K V)) :
    HeapInv items ↔ ∀ (j p : Nat) (hj : j < items.length) (hp : p < items.length),
      1 ≤ j → p = (j - 1) / 2 → items[p].Key ≤ items[j].Key := by
  constructor
  · intro h j p hj hp h1 hpj
    subst hpj
    exact h j hj h1
  · intro h j hj h1
    exact h j ((j - 1) / 2) hj (by omega) h1 rfl

/-- The loop of `siftUp` ends in a heap when it starts in an array that is a heap
everywhere except between `i` and its parent, and in which the children of `i`
are not below the parent of `i`. -/
theorem siftUpLoop_heap (fuel : Nat) (items : List (item K V)) (i : Nat)
    (hi : i < items.length) (hf : i ≤ fuel)
    (ha : ∀ (j p : Nat) (hj : j < items.length) (hp : p < items.length),
      1 ≤ j → p = (j - 1) / 2 → j ≠ i → items[p].Key ≤ items[j].Key)
    (hb : ∀ (j g : Nat) (hj : j < items.length) (hg : g < items.length),
      1 ≤ i → (j - 1) / 2 = i → 1 ≤ j → g = (i - 1) / 2 → items[g].Key ≤ items[j].Key) :
    HeapInv (siftUpLoop fuel items i).2 := by
  induction fuel generalizing items i with
  | zero =>
    have h0 : i = 0 := by omega
    subst h0
    rw [siftUpLoop_root, heapInv_iff]
    intro j p hj hp h1 hpj
    exact ha j p hj hp h1 hpj (by omega)
  | succ fuel ih =>
    by_cases h0 : i = 0
    · subst h0
      rw [siftUpLoop_root, heapInv_iff]
      intro j p hj hp h1 hpj
      exact ha j p hj hp h1 hpj (by omega)
    · have hp : (i - 1) / 2 < items.length := by omega
      have hpi : (i - 1) / 2 ≠ i := by omega
      rw [siftUpLoop_step fuel items i (by omega) hi]
      split
      · rename_i hle
        rw [heapInv_iff]
        intro j p hj hp1 h1 hpj
        by_cases hji : j = i
        · subst hji; subst hpj; exact hle
        · exact ha j p hj hp1 h1 hpj hji
      · rename_i hle
        have hlt : items[i].Key ≤ items[(i - 1) / 2].Key := le_of_lt (not_le.mp hle)
        apply ih _ _ (by simpa using hp) (by omega)
        · intro j p hj hp1 h1 hpj hjp
          have hj0 : j < items.length := by simpa using hj
          by_cases hji : j = i
          · subst hji; subst hpj
            rw [swap_get_snd items _ _ hp hi, swap_get_fst items _ _ hp hi hpi]
            exact hlt
          · rw [swap_get_other items _ _ j hp hi hj0 hjp hji]
            by_cases hpi2 : p = i
            · subst hpi2
              rw [swap_get_snd items _ _ hp hi]
              exact hb j _ hj0 hp (by omega) hpj.symm h1 rfl
            · by_cases hpp : p = (i - 1) / 2
              · subst hpp
                rw [swap_get_fst items _ _ hp hi hpi]
                exact le_trans hlt (ha j _ hj0 hp h1 hpj hji)
              · rw [swap_get_other items _ _ p hp hi (by omega) hpp hpi2]
                exact ha j p hj0 (by omega) h1 hpj hji
        · intro j g hj hg hp1 hpj h1 hgp
          have hj0 : j < items.length := by simpa using hj
          have hg0 : g < items.length := by omega
          rw [swap_get_other items _ _ g hp hi hg0 (by omega) (by omega)]
          have hpg : items[g].Key ≤ items[(i - 1) / 2].Key :=
            ha ((i - 1) / 2) g hp hg0 hp1 hgp hpi
          by_cases hji : j = i
          · subst hji
            rw [swap_get_snd items _ _ hp hi]
            exact hpg
          · rw [swap_get_other items _ _ j hp hi hj0 (by omega) hji]
            exact le_trans hpg (ha j _ hj0 hp h1 hpj.symm hji)

/-! ## Sift-down restores the heap property -/

/-- The index chosen in one iteration of `siftDown` holds a key that is `<=` the
key at `i` and at every child of `i` inside the array. -/
theorem selectMin_min (items : List (item K V)) (i m : Nat) (hi : i < items.length)
    (hm : m < items.length) (hsel : selectMin items items.length i = .ok m)
    (c : Nat) (hc : c < items.length) (hcc : c = i ∨ c = 2 * i + 1 ∨ c = 2 * i + 2) :
    items[m].Key ≤ items[c].Key := by
  unfold selectMin at hsel
  by_cases h1 : 2 * i + 1 < items.length
  · by_cases c1 : items[2 * i + 1].Key < items[i].Key
    · have f1 := le_of_lt c1
      by_cases h2 : 2 * i + 2 < items.length
      · by_cases c2 : items[2 * i + 2].Key < items[2 * i + 1].Key
        · have f2 := le_of_lt c2
          have f3 := le_of_lt (lt_trans c2 c1)
          simp [h1, h2, keyLT_ok, hi, c1, c2] at hsel
          subst hsel
          rcases hcc with rfl | rfl | rfl
          · exact f3
          · exact f2
          · exact le_refl _
        · have f2 := not_lt.mp c2
          simp [h1, h2, keyLT_ok, hi, c1, c2] at hsel
          subst hsel
          rcases hcc with rfl | rfl | rfl
          · exact f1
          · exact le_refl _
          · exact f2
      · simp [h1, h2, keyLT_ok, hi, c1] at hsel
        subst hsel
        rcases hcc with rfl | rfl | rfl
        · exact f1
        · exact le_refl _
        · omega
    · have f1 := not_lt.mp c1
      by_cases h2 : 2 * i + 2 < items.length
      · by_cases c2 : items[2 * i + 2].Key < items[i].Key
        · have f2 := le_of_lt c2
          have f3 := le_trans f2 f1
          simp [h1, h2, keyLT_ok, hi, c1, c2] at hsel
          subst hsel
          rcases hcc with rfl | rfl | rfl
          · exact f2
          · exact f3
          · exact le_refl _
        · have f2 := not_lt.mp c2
          simp [h1, h2, keyLT_ok, hi, c1, c2] at hsel
          subst hsel
          rcases hcc with rfl | rfl | rfl
          · exact le_refl _
          · exact f1
          · exact f2
      · simp [h1, h2, keyLT_ok, hi, c1] at hsel
        subst hsel
        rcases hcc with rfl | rfl | rfl
        · exact le_refl _
        · exact f1
        · omega
  · have h2 : ¬ 2 * i + 2 < items.length := by omega
    simp [h1, h2] at hsel
    subst hsel
    rcases hcc with rfl | rfl | rfl
    · exact le_refl _
    · omega
    · omega

/-- The loop of `siftDown` ends in a heap when it starts in an array that is a
heap everywhere except between `i` and its children, and in which the children
of `i` are not below the parent of `i`. -/
theorem siftDownLoop_heap (fuel : Nat) (items : List (item K V)) (i : Nat)
    (hi : i < items.length) (hf : items.length - i ≤ fuel)
    (ha : ∀ (j p : Nat) (hj : j < items.length) (hp : p < items.length),
      1 ≤ j → p = (j - 1) / 2 → p ≠ i → items[p].Key ≤ items[j].Key)
    (hb : ∀ (j g : Nat) (hj : j < items.length) (hg : g < items.length),
      1 ≤ i → (j - 1) / 2 = i → 1 ≤ j → g = (i - 1) / 2 → items[g].Key ≤ items[j].Key) :
    HeapInv (siftDownLoop fuel items items.length i).2 := by
  induction fuel generalizing items i with
  | zero => omega
  | succ fuel ih =>
    obtain ⟨m, hsel, hm, hcase⟩ := selectMin_ok items i hi
    have hmin := selectMin_min items i m hi hm hsel
    rw [siftDownLoop_step fuel items i m hi hm hsel]
    split
    · rename_i hmi
      subst hmi
      rw [heapInv_iff]
      intro j p hj hp h1 hpj
      by_cases hpm : p = m
      · subst hpm
        exact hmin j hj (by omega)
      · exact ha j p hj hp h1 hpj hpm
    · rename_i hmi
      have him : i ≠ m := fun h => hmi h.symm
      have hlen : ((items.set i items[m]).set m items[i]).length = items.length := by simp
      have e : siftDownLoop fuel ((items.set i items[m]).set m items[i]) items.length m =
          siftDownLoop fuel ((items.set i items[m]).set m items[i])
            ((items.set i items[m]).set m items[i]).length m := by rw [hlen]
      rw [e]
      apply ih ((items.set i items[m]).set m items[i]) m
        (by rw [hlen]; exact hm) (by rw [hlen]; omega)
      · intro j p hj hp h1 hpj hpm
        have hj0 : j < items.length := by simpa using hj
        have hp0 : p < items.length := by simpa using hp
        by_cases hjm : j = m
        · subst hjm
          have hpi : p = i := by omega
          subst hpi
          rw [swap_get_snd items _ _ hi hm, swap_get_fst items _ _ hi hm him]
          exact hmin p hi (Or.inl rfl)
        · by_cases hji : j = i
          · subst hji
            rw [swap_get_fst items _ _ hi hm him,
              swap_get_other items _ _ p hi hm hp0 (by omega) hpm]
            exact hb m p hm hp0 (by omega) (by omega) (by omega) hpj
          · rw [swap_get_other items _ _ j hi hm hj0 hji hjm]
            by_cases hpi : p = i
            · subst hpi
              rw [swap_get_fst items _ _ hi hm him]
              exact hmin j hj0 (by omega)
            · rw [swap_get_other items _ _ p hi hm hp0 hpi hpm]
              exact ha j p hj0 hp0 h1 hpj hpi
      · intro j g hj hg h1 hpj hj1 hgm
        have hj0 : j < items.length := by simpa using hj
        have hgi : g = i := by omega
        subst hgi
        rw [swap_get_fst items _ _ hi hm him,
          swap_get_other items _ _ j hi hm hj0 (by omega) (by omega)]
        exact ha j m hj0 hm hj1 hpj.symm (fun h => hmi h)

end Heap


/-! ## The public operations -/

section Ops

variable {K V : Type}

section AnyOrder

variable [LE K] [LT K] [DecidableRel (LE.le : K → K → Prop)]
  [DecidableRel (LT.lt : K → K → Prop)]

/-- `Enqueue` returns, and the array afterwards is a rearrangement of the old
array with the new entry appended. -/
theorem Enqueue_ok (q : Queue K V) (k : K) (v : V) :
    ∃ items1, Enqueue q k v = (.ok (), { items := items1 }) ∧
      items1.Perm (q.items ++ [{ Key := k, Value := v }]) := by
  have hn : (q.items ++ [({ Key := k, Value := v } : item K V)]).length - 1
      = q.items.length := by simp
  obtain ⟨r, hr, hperm⟩ := siftUpLoop_ok q.items.length
    (q.items ++ [({ Key := k, Value := v } : item K V)]) q.items.length (by simp) le_rfl
  refine ⟨r, ?_, hperm⟩
  simp only [Enqueue, siftUp, hn, hr]

theorem readAt_ok (items : List (item K V)) (j : Nat) (hj : j < items.length) :
    readAt items j = .ok items[j] := by
  simp [readAt, List.getElem?_eq_getElem, hj]

/-- The array that `Dequeue` hands to `siftDown`, for an array with at least one
entry: the last entry written to index 0, the last slot cut off. -/
theorem moveLast_perm (x : item K V) (rest : List (item K V)) :
    (x :: (((x :: rest).set 0 ((x :: rest)[rest.length])).take rest.length)).Perm
      (x :: rest) := by
  cases rest with
  | nil => simp
  | cons y r =>
    have h1 : ((x :: y :: r).set 0 ((x :: y :: r)[(y :: r).length])).take (y :: r).length
        = (y :: r).getLast (by simp) :: (y :: r).dropLast := by
      rw [List.dropLast_eq_take, List.getLast_eq_getElem]
      simp
    rw [h1]
    refine List.Perm.cons x ?_
    have h2 : (y :: r).dropLast ++ [(y :: r).getLast (by simp)] = y :: r :=
      List.dropLast_append_getLast _
    calc ((y :: r).getLast (by simp) :: (y :: r).dropLast).Perm
          ((y :: r).dropLast ++ [(y :: r).getLast (by simp)]) :=
            (List.perm_append_singleton _ _).symm
      _ = y :: r := h2

/-- `Dequeue` on `x :: rest`, with the loop of `siftDown` left in place. -/
theorem Dequeue_cons (x : item K V) (rest : List (item K V)) :
    Dequeue ({ items := x :: rest } : Queue K V) =
      if rest.length > 0 then
        (match siftDown ({ items := ((x :: rest).set 0
            ((x :: rest)[rest.length])).take rest.length } : Queue K V) 0 with
          | (.error e, q2) => (.error e, q2)
          | (.ok _, q2) => (.ok (x.Key, x.Value), q2))
      else (.ok (x.Key, x.Value), { items := [] }) := by
  cases rest with
  | nil => simp [Dequeue, readAt]
  | cons y r =>
    have h1 : readAt (x :: y :: r) (r.length + 1) = .ok ((y :: r)[r.length]) := by
      simp [readAt]
    simp [Dequeue, readAt, h1]

theorem siftDown_ok (q : Queue K V) (i : Nat) (hi : i < q.items.length) :
    ∃ items1, siftDown q i = (.ok (), { items := items1 }) ∧ items1.Perm q.items := by
  obtain ⟨r, hr, hperm⟩ := siftDownLoop_ok (q.items.length + 1) q.items i hi (by omega)
  exact ⟨r, by simp only [siftDown, hr], hperm⟩

/-- `Dequeue` on a non-empty queue returns the entry at index 0, and the array
afterwards together with that entry is a rearrangement of the old array. -/
theorem Dequeue_ok (x : item K V) (rest : List (item K V)) :
    ∃ items1, Dequeue ({ items := x :: rest } : Queue K V)
        = (.ok (x.Key, x.Value), { items := items1 }) ∧
      (x :: items1).Perm (x :: rest) := by
  rw [Dequeue_cons]
  by_cases hr : rest.length > 0
  · rw [if_pos hr]
    obtain ⟨r, hsd, hperm⟩ := siftDown_ok
      ({ items := ((x :: rest).set 0 ((x :: rest)[rest.length])).take rest.length }
        : Queue K V) 0 (by simp; omega)
    refine ⟨r, by rw [hsd], ?_⟩
    exact (List.Perm.cons x hperm).trans (moveLast_perm x rest)
  · rw [if_neg hr]
    have : rest = [] := List.length_eq_zero.mp (by omega)
    subst this
    exact ⟨[], rfl, List.Perm.refl _⟩

theorem isEmpty_false (q : Queue K V) (h : IsEmpty q = false) :
    ∃ x rest, q = { items := x :: rest } := by
  cases q with
  | mk items =>
    cases items with
    | nil => simp [IsEmpty] at h
    | cons x rest => exact ⟨x, rest, rfl⟩

theorem isEmpty_true (q : Queue K V) (h : IsEmpty q = true) : q = { items := [] } := by
  cases q with
  | mk items =>
    cases items with
    | nil => rfl
    | cons x rest => simp [IsEmpty] at h

theorem Dequeue_nil : Dequeue ({ items := [] } : Queue K V)
    = (.error .emptyDequeue, { items := [] }) := by
  simp [Dequeue]

theorem Peek_nil : Peek ({ items := [] } : Queue K V)
    = (.error .emptyPeek, { items := [] }) := by
  simp [Peek]

theorem Peek_cons (x : item K V) (rest : List (item K V)) :
    Peek ({ items := x :: rest } : Queue K V)
      = (.ok (x.Key, x.Value), { items := x :: rest }) := by
  simp [Peek, readAt]

theorem TryDequeue_nil [Inhabited K] [Inhabited V] :
    TryDequeue ({ items := [] } : Queue K V)
      = (.ok (default, default, false), { items := [] }) := by
  simp [TryDequeue]

theorem TryPeek_nil [Inhabited K] [Inhabited V] :
    TryPeek ({ items := [] } : Queue K V)
      = (.ok (default, default, false), { items := [] }) := by
  simp [TryPeek]

theorem TryPeek_cons [Inhabited K] [Inhabited V] (x : item K V) (rest : List (item K V)) :
    TryPeek ({ items := x :: rest } : Queue K V)
      = (.ok (x.Key, x.Value, true), { items := x :: rest }) := by
  simp [TryPeek, Peek_cons]

theorem TryDequeue_cons [Inhabited K] [Inhabited V] (x : item K V)
    (rest items1 : List (item K V))
    (h : Dequeue ({ items := x :: rest } : Queue K V)
      = (.ok (x.Key, x.Value), { items := items1 })) :
    TryDequeue ({ items := x :: rest } : Queue K V)
      = (.ok (x.Key, x.Value, true), { items := items1 }) := by
  simp [TryDequeue, h]

/-- Enqueuing a list of pairs returns, and the array afterwards is a
rearrangement of the old array followed by the entries of the list. -/
theorem enqueueAll_ok (l : List (K × V)) (q : Queue K V) :
    ∃ items1, enqueueAll q l = (.ok (), { items := items1 }) ∧
      items1.Perm (q.items ++ l.map toItem) := by
  induction l generalizing q with
  | nil => exact ⟨q.items, rfl, by simp⟩
  | cons kv rest ih =>
    obtain ⟨a, ha, hpa⟩ := Enqueue_ok q kv.1 kv.2
    obtain ⟨b, hb, hpb⟩ := ih { items := a }
    refine ⟨b, by simp only [enqueueAll, ha, hb], ?_⟩
    refine hpb.trans ?_
    have : q.items ++ List.map toItem (kv :: rest)
        = (q.items ++ [toItem kv]) ++ List.map toItem rest := by simp
    rw [this]
    exact List.Perm.append_right _ hpa

/-- Draining returns and leaves the queue empty, and the pairs it collects are
the stored entries, each once. -/
theorem drain_ok (fuel : Nat) (q : Queue K V) (hf : q.items.length ≤ fuel) :
    ∃ out, drain fuel q = (.ok out, { items := [] }) ∧ (out.map toItem).Perm q.items := by
  induction fuel generalizing q with
  | zero =>
    have : q = { items := [] } := by
      cases q with
      | mk items => simp at hf; simp [hf]
    subst this
    exact ⟨[], by simp [drain, IsEmpty], by simp⟩
  | succ fuel ih =>
    cases q with
    | mk items =>
      cases items with
      | nil => exact ⟨[], by simp [drain, IsEmpty], by simp⟩
      | cons x rest =>
        obtain ⟨a, ha, hpa⟩ := Dequeue_ok x rest
        have hlen : a.length = rest.length := by
          have := hpa.length_eq
          simpa using this
        obtain ⟨out, hout, hpo⟩ := ih { items := a } (by simp at hf ⊢; omega)
        refine ⟨(x.Key, x.Value) :: out, by simp [drain, IsEmpty, ha, hout], ?_⟩
        simp only [List.map_cons]
        exact (List.Perm.cons _ hpo).trans hpa

end AnyOrder

section Linear

variable [LinearOrder K]

/-- In a heap the key at index 0 is `<=` every key of the array. -/
theorem heap_root_le (items : List (item K V)) (hh : HeapInv items) (j : Nat)
    (hj : j < items.length) : items[0].Key ≤ items[j].Key := by
  induction j using Nat.strong_induction_on with
  | _ j ih =>
    by_cases h0 : j = 0
    · subst h0; exact le_refl _
    · exact le_trans (ih ((j - 1) / 2) (by omega) (by omega)) (hh j hj (by omega))

/-- `Enqueue` keeps the heap property. -/
theorem Enqueue_heap (q : Queue K V) (k : K) (v : V) (hh : HeapInv q.items) :
    HeapInv (Enqueue q k v).2.items := by
  have hn : (q.items ++ [({ Key := k, Value := v } : item K V)]).length - 1
      = q.items.length := by simp
  simp only [Enqueue, siftUp, hn]
  rw [heapInv_iff] at hh
  apply siftUpLoop_heap _ _ _ (by simp) le_rfl
  · intro j p hj hp h1 hpj hjn
    have hj0 : j < q.items.length := by
      simp only [List.length_append, List.length_singleton] at hj; omega
    have hp0 : p < q.items.length := by omega
    rw [List.getElem_append_left hj0, List.getElem_append_left hp0]
    exact hh j p hj0 hp0 h1 hpj
  · intro j g hj hg h1 hpj hj1 hgp
    simp only [List.length_append, List.length_singleton] at hj
    omega

/-- `Dequeue` keeps the heap property. -/
theorem Dequeue_heap (x : item K V) (rest : List (item K V)) (hh : HeapInv (x :: rest)) :
    HeapInv (Dequeue ({ items := x :: rest } : Queue K V)).2.items := by
  rw [Dequeue_cons]
  by_cases hr : rest.length > 0
  · rw [if_pos hr]
    have hlen : (((x :: rest).set 0 ((x :: rest)[rest.length])).take
        rest.length).length = rest.length := by simp
    have hheap : HeapInv (siftDown ({ items := ((x :: rest).set 0
        ((x :: rest)[rest.length])).take rest.length } : Queue K V) 0).2.items := by
      simp only [siftDown]
      rw [heapInv_iff] at hh
      apply siftDownLoop_heap _ _ _ (by rw [hlen]; exact hr) (by omega)
      · intro j p hj hp h1 hpj hp0
        rw [hlen] at hj hp
        rw [List.getElem_take, List.getElem_take, List.getElem_set_ne (by omega),
          List.getElem_set_ne (by omega)]
        exact hh j p (by simp; omega) (by simp; omega) h1 hpj
      · intro j g hj hg h1
        omega
    obtain ⟨r, hsd, -⟩ := siftDown_ok
      ({ items := ((x :: rest).set 0 ((x :: rest)[rest.length])).take rest.length }
        : Queue K V) 0 (by rw [hlen]; exact hr)
    rw [hsd] at hheap
    rw [hsd]
    exact hheap
  · rw [if_neg hr]
    intro j hj
    simp at hj

theorem reachable_heap [Inhabited K] [Inhabited V] (q : Queue K V) (h : Reachable q) :
    HeapInv q.items := by
  induction h with
  | new => intro i hi; simp [NewQueue] at hi
  | enqueue q key value _ ih => exact Enqueue_heap q key value ih
  | dequeue q _ hne ih =>
    obtain ⟨x, rest, rfl⟩ := isEmpty_false q hne
    exact Dequeue_heap x rest ih
  | tryDequeue q _ ih =>
    cases q with
    | mk items =>
      cases items with
      | nil => rw [TryDequeue_nil]; exact ih
      | cons x rest =>
        obtain ⟨a, ha, -⟩ := Dequeue_ok x rest
        have hd := Dequeue_heap x rest ih
        rw [ha] at hd
        rw [TryDequeue_cons x rest a ha]
        exact hd

theorem enqueueAll_heap (l : List (K × V)) (q : Queue K V) (hh : HeapInv q.items) :
    HeapInv (enqueueAll q l).2.items := by
  induction l generalizing q with
  | nil => exact hh
  | cons kv rest ih =>
    obtain ⟨a, ha, -⟩ := Enqueue_ok q kv.1 kv.2
    have h1 := Enqueue_heap q kv.1 kv.2 hh
    rw [ha] at h1
    have h2 := ih { items := a } h1
    simp only [enqueueAll, ha]
    exact h2

/-- In a heap the key at index 0 is `<=` the key of every stored entry. -/
theorem heap_head_le (x : item K V) (rest : List (item K V)) (hh : HeapInv (x :: rest))
    (y : item K V) (hy : y ∈ x :: rest) : x.Key ≤ y.Key := by
  obtain ⟨j, hj, rfl⟩ := List.getElem_of_mem hy
  exact heap_root_le (x :: rest) hh j hj

/-- Draining a heap returns, leaves the queue empty, and collects the stored
entries, each once, with the keys in non-decreasing order. -/
theorem drain_sorted (fuel : Nat) (q : Queue K V) (hf : q.items.length ≤ fuel)
    (hh : HeapInv q.items) :
    ∃ out, drain fuel q = (.ok out, { items := [] }) ∧ (out.map toItem).Perm q.items ∧
      List.Sorted (fun a b => a ≤ b) (out.map Prod.fst) := by
  induction fuel generalizing q with
  | zero =>
    have : q = { items := [] } := by
      cases q with
      | mk items => simp at hf; simp [hf]
    subst this
    exact ⟨[], by simp [drain, IsEmpty], by simp, by simp⟩
  | succ fuel ih =>
    cases q with
    | mk items =>
      cases items with
      | nil => exact ⟨[], by simp [drain, IsEmpty], by simp, by simp⟩
      | cons x rest =>
        obtain ⟨a, ha, hpa⟩ := Dequeue_ok x rest
        have hlen : a.length = rest.length := by
          have := hpa.length_eq
          simpa using this
        have hheap := Dequeue_heap x rest hh
        rw [ha] at hheap
        obtain ⟨out, hout, hpo, hso⟩ := ih { items := a } (by simp at hf ⊢; omega) hheap
        refine ⟨(x.Key, x.Value) :: out, by simp [drain, IsEmpty, ha, hout], ?_, ?_⟩
        · simp only [List.map_cons]
          exact (List.Perm.cons _ hpo).trans hpa
        · simp only [List.map_cons, List.sorted_cons]
          refine ⟨?_, hso⟩
          intro b hb
          obtain ⟨kv, hkv, rfl⟩ := List.mem_map.mp hb
          have h1 : toItem kv ∈ a := hpo.subset (List.mem_map_of_mem toItem hkv)
          have h2 : toItem kv ∈ x :: rest := hpa.subset (List.mem_cons_of_mem x h1)
          exact heap_head_le x rest hh (toItem kv) h2

end Linear

section AnyOrder

variable [LE K] [LT K] [DecidableRel (LE.le : K → K → Prop)]
  [DecidableRel (LT.lt : K → K → Prop)]

theorem Count_Enqueue (q : Queue K V) (k : K) (v : V) :
    Count (Enqueue q k v).2 = Count q + 1 := by
  obtain ⟨a, ha, hpa⟩ := Enqueue_ok q k v
  rw [ha]
  have := hpa.length_eq
  simpa [Count] using this

theorem Count_Dequeue (q : Queue K V) (hne : IsEmpty q = false) :
    Count (Dequeue q).2 + 1 = Count q := by
  obtain ⟨x, rest, rfl⟩ := isEmpty_false q hne
  obtain ⟨a, ha, hpa⟩ := Dequeue_ok x rest
  rw [ha]
  have := hpa.length_eq
  simpa [Count] using this

theorem reachedBy_count (k m : Nat) (q : Queue K V) (h : ReachedBy k m q) :
    Count q + m = k := by
  induction h with
  | new => rfl
  | enqueue k m q key value _ ih => rw [Count_Enqueue]; omega
  | dequeue k m q _ hne ih =>
    have := Count_Dequeue q hne
    omega

end AnyOrder

end Ops

/-! ## Budgets, bounds and the single steps of the loops -/

section Budget

variable {K V : Type}

variable [LE K] [LT K] [DecidableRel (LE.le : K → K → Prop)]
  [DecidableRel (LT.lt : K → K → Prop)]

theorem DequeueWith_siftDown (q : Queue K V) : DequeueWith siftDown q = Dequeue q := rfl

/-- With no child of an index `i < n` below `n`, one iteration of `siftDown`
chooses `i` and reads nothing. -/
theorem selectMin_out (items : List (item K V)) (n i : Nat) (_hi : i < n)
    (h : n ≤ 2 * i + 1) :
    selectMin items n i = .ok i := by
  have h1 : ¬ 2 * i + 1 < n := by omega
  have h2 : ¬ 2 * i + 2 < n := by omega
  simp [selectMin, h1, h2]

theorem siftDownLoop_stay (fuel : Nat) (items : List (item K V)) (n i : Nat)
    (h : selectMin items n i = .ok i) :
    siftDownLoop (fuel + 1) items n i = (.ok (), items) := by
  rw [siftDownLoop, h]
  simp

theorem siftUp_ok (q : Queue K V) (i : Nat) (hi : i < q.items.length) :
    ∃ items1, siftUp q i = (.ok (), { items := items1 }) ∧ items1.Perm q.items := by
  obtain ⟨r, hr, hperm⟩ := siftUpLoop_ok i q.items i hi le_rfl
  exact ⟨r, by simp only [siftUp, hr], hperm⟩

/-- The loop of `siftUp` gives the same result on every budget of at least `i`
iterations. -/
theorem siftUpLoop_fuel (f1 f2 : Nat) (items : List (item K V)) (i : Nat)
    (hi : i < items.length) (h1 : i ≤ f1) (h2 : i ≤ f2) :
    siftUpLoop f1 items i = siftUpLoop f2 items i := by
  induction f1 generalizing f2 items i with
  | zero =>
    have h0 : i = 0 := by omega
    subst h0
    rw [siftUpLoop_root, siftUpLoop_root]
  | succ f1 ih =>
    by_cases h0 : i = 0
    · subst h0
      rw [siftUpLoop_root, siftUpLoop_root]
    · obtain ⟨g, rfl⟩ : ∃ g, f2 = g + 1 := ⟨f2 - 1, by omega⟩
      rw [siftUpLoop_step f1 items i (by omega) hi, siftUpLoop_step g items i (by omega) hi]
      split
      · rfl
      · exact ih g _ _ (by simp; omega) (by omega) (by omega)

/-- The loop of `siftDown` gives the same result on every budget of at least
`len(items) - i` iterations. -/
theorem siftDownLoop_fuel (f1 f2 : Nat) (items : List (item K V)) (i : Nat)
    (hi : i < items.length) (h1 : items.length - i ≤ f1) (h2 : items.length - i ≤ f2) :
    siftDownLoop f1 items items.length i = siftDownLoop f2 items items.length i := by
  induction f1 generalizing f2 items i with
  | zero => omega
  | succ f1 ih =>
    obtain ⟨g, rfl⟩ : ∃ g, f2 = g + 1 := ⟨f2 - 1, by omega⟩
    obtain ⟨m, hsel, hm, hcase⟩ := selectMin_ok items i hi
    rw [siftDownLoop_step f1 items i m hi hm hsel, siftDownLoop_step g items i m hi hm hsel]
    split
    · rfl
    · have hlen : ((items.set i items[m]).set m items[i]).length = items.length := by simp
      have := ih g ((items.set i items[m]).set m items[i]) m (by rw [hlen]; exact hm)
        (by rw [hlen]; omega) (by rw [hlen]; omega)
      rw [hlen] at this
      exact this

end Budget

/-! ## The ancestor chain of `siftUp` -/

section Chain
variable {K V : Type}

theorem parent_le (i : Nat) : parent i ≤ i := by
  unfold parent; omega

theorem parent_lt (i : Nat) (h : 0 < i) : parent i < i := by
  unfold parent; omega

theorem ancestor_zero (i : Nat) : ancestor i 0 = i := rfl

theorem ancestor_succ (i t : Nat) : ancestor i (t + 1) = ancestor (parent i) t := rfl

theorem ancestor_succ_parent (i t : Nat) : ancestor i (t + 1) = parent (ancestor i t) := by
  unfold ancestor
  exact Function.iterate_succ_apply' parent t i

theorem ancestor_le (i t : Nat) : ancestor i t ≤ i := by
  induction t generalizing i with
  | zero => exact le_refl _
  | succ t ih =>
    rw [ancestor_succ]
    exact le_trans (ih (parent i)) (parent_le i)

theorem swap_get?_fst (items : List (item K V)) (a b : Nat) (ha : a < items.length)
    (hb : b < items.length) (hne : a ≠ b) :
    ((items.set a items[b]).set b items[a])[a]? = some items[b] := by
  rw [List.getElem?_eq_getElem (by simpa using ha), swap_get_fst items a b ha hb hne]

theorem swap_get?_snd (items : List (item K V)) (a b : Nat) (ha : a < items.length)
    (hb : b < items.length) :
    ((items.set a items[b]).set b items[a])[b]? = some items[a] := by
  rw [List.getElem?_eq_getElem (by simpa using hb), swap_get_snd items a b ha hb]

theorem swap_get?_other (items : List (item K V)) (a b k : Nat) (ha : a < items.length)
    (hb : b < items.length) (hka : k ≠ a) (hkb : k ≠ b) :
    ((items.set a items[b]).set b items[a])[k]? = items[k]? := by
  rw [List.getElem?_set_ne (Ne.symm hkb), List.getElem?_set_ne (Ne.symm hka)]

variable [LE K] [LT K] [DecidableRel (LE.le : K → K → Prop)]
  [DecidableRel (LT.lt : K → K → Prop)]

/-- Where the loop of `siftUp` leaves the entry `e` that it starts with at index
`i`: at the first position of the ancestor chain of `i` that is the root or has a
parent with a key `<=` the key of `e`; the entries passed on the way are each one
step further down the chain, and no other index is written. -/
theorem siftUpLoop_chain (fuel : Nat) (items : List (item K V)) (i : Nat) (e : item K V)
    (he : items[i]? = some e) (hf : i ≤ fuel) :
    ∃ (t : Nat) (r : List (item K V)),
      siftUpLoop fuel items i = (.ok (), r) ∧ r.length = items.length ∧
      (ancestor i t = 0 ∨
        ∃ p, items[parent (ancestor i t)]? = some p ∧ p.Key ≤ e.Key) ∧
      (∀ s, s < t → 0 < ancestor i s ∧
        ∃ p, items[ancestor i (s + 1)]? = some p ∧ ¬ p.Key ≤ e.Key ∧
          r[ancestor i s]? = some p) ∧
      r[ancestor i t]? = some e ∧
      (∀ m, (∀ s, s ≤ t → m ≠ ancestor i s) → r[m]? = items[m]?) := by
  induction fuel generalizing items i with
  | zero =>
    have h0 : i = 0 := by omega
    subst h0
    exact ⟨0, items, siftUpLoop_root 0 items, rfl, Or.inl rfl, by intro s hs; omega, he,
      by intro m _; rfl⟩
  | succ fuel ih =>
    by_cases h0 : i = 0
    · subst h0
      exact ⟨0, items, siftUpLoop_root _ items, rfl, Or.inl rfl, by intro s hs; omega, he,
        by intro m _; rfl⟩
    · have hi : i < items.length := by
        by_contra hc
        rw [List.getElem?_eq_none (by omega)] at he
        exact absurd he (by simp)
      have hei : items[i] = e := by
        rw [List.getElem?_eq_getElem hi] at he
        exact Option.some.inj he
      have hp : (i - 1) / 2 < items.length := by omega
      have hpi : (i - 1) / 2 ≠ i := by omega
      rw [siftUpLoop_step fuel items i (by omega) hi]
      split
      · rename_i hle
        refine ⟨0, items, rfl, rfl, Or.inr ⟨items[(i - 1) / 2], ?_, ?_⟩,
          by intro s hs; omega, he, by intro m _; rfl⟩
        · exact List.getElem?_eq_getElem hp
        · rw [← hei]; exact hle
      · rename_i hle
        obtain ⟨t, r, hr, hlen, hstop, hmoved, hat, hother⟩ :=
          ih ((items.set ((i - 1) / 2) items[i]).set i items[(i - 1) / 2]) ((i - 1) / 2)
            (by rw [swap_get?_fst items _ _ hp hi hpi, hei]) (by omega)
        have hanc : ∀ s, ancestor i (s + 1) = ancestor ((i - 1) / 2) s := fun s => rfl
        have hancle : ∀ s, ancestor ((i - 1) / 2) s ≤ (i - 1) / 2 := fun s => ancestor_le _ s
        refine ⟨t + 1, r, hr, by rw [hlen]; simp, ?_, ?_, ?_, ?_⟩
        · rcases hstop with h | ⟨p, hp1, hp2⟩
          · exact Or.inl h
          · by_cases hz : ancestor ((i - 1) / 2) t = 0
            · exact Or.inl hz
            · refine Or.inr ⟨p, ?_, hp2⟩
              have h1 := parent_lt _ (Nat.pos_of_ne_zero hz)
              have h2 := hancle t
              rw [swap_get?_other items _ _ _ hp hi (by omega) (by omega)] at hp1
              exact hp1
        · intro s hs
          cases s with
          | zero =>
            refine ⟨by rw [ancestor_zero]; omega, items[(i - 1) / 2], ?_, ?_, ?_⟩
            · exact List.getElem?_eq_getElem hp
            · rw [← hei]; exact hle
            · rw [ancestor_zero, hother i (fun s _ => by have := hancle s; omega)]
              exact swap_get?_snd items _ _ hp hi
          | succ s =>
            obtain ⟨hpos, p, hp1, hp2, hp3⟩ := hmoved s (by omega)
            refine ⟨hpos, p, ?_, hp2, hp3⟩
            have h1 : ancestor ((i - 1) / 2) (s + 1) < ancestor ((i - 1) / 2) s := by
              rw [ancestor_succ_parent]
              exact parent_lt _ hpos
            have h2 := hancle s
            rw [swap_get?_other items _ _ _ hp hi (by omega) (by omega)] at hp1
            exact hp1
        · exact hat
        · intro m hm
          have hmi : m ≠ i := hm 0 (by omega)
          have hmp : m ≠ (i - 1) / 2 := hm 1 (by omega)
          rw [hother m (fun s hs => hm (s + 1) (by omega))]
          exact swap_get?_other items _ _ m hp hi hmp hmi

end Chain

section ChainL
variable {K V : Type}
variable [LinearOrder K]

/-- The array after `Enqueue(k, v)`, index by index, along the ancestor chain of
the new leaf `n = len(items)`. -/
theorem Enqueue_chain (q : Queue K V) (k : K) (v : V) :
    ∃ (t : Nat) (r : List (item K V)),
      Enqueue q k v = (.ok (), { items := r }) ∧ r.length = q.items.length + 1 ∧
      (ancestor q.items.length t = 0 ∨
        ∃ p, q.items[parent (ancestor q.items.length t)]? = some p ∧ p.Key ≤ k) ∧
      (∀ s, s < t → 0 < ancestor q.items.length s ∧
        ∃ p, q.items[parent (ancestor q.items.length s)]? = some p ∧ k < p.Key ∧
          r[ancestor q.items.length s]? = some p) ∧
      r[ancestor q.items.length t]? = some { Key := k, Value := v } ∧
      (∀ m, (∀ s, s ≤ t → m ≠ ancestor q.items.length s) → r[m]? = q.items[m]?) := by
  have hn : (q.items ++ [({ Key := k, Value := v } : item K V)]).length - 1
      = q.items.length := by simp
  obtain ⟨t, r, hr, hlen, hstop, hmoved, hat, hother⟩ :=
    siftUpLoop_chain q.items.length (q.items ++ [({ Key := k, Value := v } : item K V)])
      q.items.length { Key := k, Value := v } (by simp) le_rfl
  have hle : ∀ s, ancestor q.items.length s ≤ q.items.length := fun s => ancestor_le _ s
  refine ⟨t, r, by simp only [Enqueue, siftUp, hn, hr], by rw [hlen]; simp, ?_, ?_, hat, ?_⟩
  · rcases hstop with h | ⟨p, hp1, hp2⟩
    · exact Or.inl h
    · by_cases hz : ancestor q.items.length t = 0
      · exact Or.inl hz
      · refine Or.inr ⟨p, ?_, hp2⟩
        have h1 := parent_lt _ (Nat.pos_of_ne_zero hz)
        have h2 := hle t
        rw [List.getElem?_append_left (by omega)] at hp1
        exact hp1
  · intro s hs
    obtain ⟨hpos, p, hp1, hp2, hp3⟩ := hmoved s hs
    refine ⟨hpos, p, ?_, not_le.mp hp2, hp3⟩
    rw [ancestor_succ_parent] at hp1
    have h1 := parent_lt _ hpos
    have h2 := hle s
    rw [List.getElem?_append_left (by omega)] at hp1
    exact hp1
  · intro m hm
    rw [hother m hm]
    have hmn : m ≠ q.items.length := hm 0 (by omega)
    by_cases hlt : m < q.items.length
    · exact List.getElem?_append_left hlt
    · rw [List.getElem?_eq_none (by simp; omega), List.getElem?_eq_none (by omega)]

theorem Peek_of_head (r : List (item K V)) (e : item K V) (h : r[0]? = some e) :
    Peek ({ items := r } : Queue K V) = (.ok (e.Key, e.Value), { items := r }) := by
  cases r with
  | nil => simp at h
  | cons x rest =>
    simp at h
    subst h
    exact Peek_cons x rest

/-- The root after `Enqueue(k, v)` on a non-empty heap with root `x0`: the new
entry if `k < key(x0)`, and `x0` otherwise. -/
theorem Enqueue_root (x0 : item K V) (rest : List (item K V)) (hh : HeapInv (x0 :: rest))
    (k : K) (v : V) :
    (k < x0.Key → (Enqueue ({ items := x0 :: rest } : Queue K V) k v).2.items[0]?
      = some { Key := k, Value := v }) ∧
    (¬ k < x0.Key → (Enqueue ({ items := x0 :: rest } : Queue K V) k v).2.items[0]?
      = some x0) := by
  obtain ⟨t, r, hr, hlen, hstop, hmoved, hat, hother⟩ :=
    Enqueue_chain ({ items := x0 :: rest } : Queue K V) k v
  rw [hr]
  simp only at hstop hmoved hat hother ⊢
  constructor
  · intro hlt
    have hz : ancestor (x0 :: rest).length t = 0 := by
      rcases hstop with h | ⟨p, hp1, hp2⟩
      · exact h
      · exfalso
        obtain ⟨hj, rfl⟩ := List.getElem?_eq_some.mp hp1
        have := heap_root_le (x0 :: rest) hh _ hj
        simp only [List.getElem_cons_zero] at this
        exact absurd (lt_of_le_of_lt (le_trans this hp2) hlt) (lt_irrefl _)
    rw [hz] at hat
    exact hat
  · intro hnlt
    have h0 : ∀ s, s ≤ t → 0 ≠ ancestor (x0 :: rest).length s := by
      intro s hs hc
      by_cases hst : s < t
      · have := (hmoved s hst).1
        omega
      · have hst2 : s = t := by omega
        subst hst2
        cases s with
        | zero => rw [ancestor_zero] at hc; simp at hc
        | succ s =>
          obtain ⟨-, p, hp1, hp2, -⟩ := hmoved s (by omega)
          rw [← ancestor_succ_parent, ← hc] at hp1
          simp at hp1
          subst hp1
          exact hnlt hp2
    rw [hother 0 h0]
    simp

end ChainL

section Ref
variable {K V : Type}
variable [LinearOrder K]

/-- The ancestor chain goes strictly down as long as it has not reached the root. -/
theorem ancestor_lt (n s t : Nat) (hst : s < t) (hpos : ∀ u, u < t → 0 < ancestor n u) :
    ancestor n t < ancestor n s := by
  induction t with
  | zero => omega
  | succ t ih =>
    have h1 : ancestor n (t + 1) < ancestor n t := by
      rw [ancestor_succ_parent]
      exact parent_lt _ (hpos t (by omega))
    by_cases h : s = t
    · subst h; exact h1
    · exact lt_trans h1 (ih (by omega) (fun u hu => hpos u (by omega)))

/-- A chain that has not reached the root after `t` steps started at least at
index `t`. -/
theorem ancestor_depth_le (n t : Nat) (hpos : ∀ u, u < t → 0 < ancestor n u) : t ≤ n := by
  have h2 : ∀ u, u ≤ t → ancestor n u + u ≤ n := by
    intro u
    induction u with
    | zero => intro _; rw [ancestor_zero]; omega
    | succ u ih =>
      intro hu
      have := ih (by omega)
      have h3 := ancestor_lt n u (u + 1) (by omega) (fun w hw => hpos w (by omega))
      omega
  have := h2 t le_rfl
  omega

theorem stopDepth_eq (items : List (item K V)) (k : K) (t fuel j : Nat) (hf : t ≤ fuel)
    (hstop : ancestor j t = 0 ∨ ∃ p, items[parent (ancestor j t)]? = some p ∧ p.Key ≤ k)
    (hmoved : ∀ s, s < t → 0 < ancestor j s ∧
      ∃ p, items[parent (ancestor j s)]? = some p ∧ k < p.Key) :
    stopDepth items k fuel j = t := by
  induction t generalizing fuel j with
  | zero =>
    rw [ancestor_zero] at hstop
    cases fuel with
    | zero => rfl
    | succ fuel =>
      rcases hstop with h | ⟨p, hp1, hp2⟩
      · simp [stopDepth, h]
      · simp [stopDepth, hp1, hp2]
  | succ t ih =>
    obtain ⟨fuel, rfl⟩ : ∃ g, fuel = g + 1 := ⟨fuel - 1, by omega⟩
    obtain ⟨hpos, p, hp1, hp2⟩ := hmoved 0 (by omega)
    rw [ancestor_zero] at hpos hp1
    have := ih fuel (parent j) (by omega) hstop
      (fun s hs => hmoved (s + 1) (by omega))
    simp [stopDepth, Nat.pos_iff_ne_zero.mp hpos, hp1, not_le.mpr hp2, this]

/-- `Enqueue` leaves the array of the reference. -/
theorem Enqueue_eq_ref (q : Queue K V) (k : K) (v : V) :
    (Enqueue q k v).2.items = EnqueueRef q.items k v := by
  obtain ⟨t, r, hr, hlen, hstop, hmoved, hat, hother⟩ := Enqueue_chain q k v
  have hpos : ∀ u, u < t → 0 < ancestor q.items.length u := fun u hu => (hmoved u hu).1
  have htn : t ≤ q.items.length := ancestor_depth_le q.items.length t hpos
  have hsd : stopDepth q.items k q.items.length q.items.length = t :=
    stopDepth_eq q.items k t _ _ htn hstop
      (fun s hs => by
        obtain ⟨h1, p, h2, h3, -⟩ := hmoved s hs
        exact ⟨h1, p, h2, h3⟩)
  rw [hr]
  simp only
  apply List.ext_getElem?
  intro m
  unfold EnqueueRef
  simp only [hsd]
  by_cases hm : m < q.items.length + 1
  · rw [List.getElem?_map, List.getElem?_range hm]
    simp only [Option.map_some']
    by_cases h1 : m = ancestor q.items.length t
    · rw [if_pos h1, h1]
      exact hat
    · rw [if_neg h1]
      by_cases h2 : ∃ s, s < t ∧ m = ancestor q.items.length s
      · obtain ⟨s, hs, hms⟩ := h2
        have hany : (List.range t).any (fun s => decide (m = ancestor q.items.length s))
            = true := by
          rw [List.any_eq_true]
          exact ⟨s, List.mem_range.mpr hs, by simpa using hms⟩
        rw [if_pos hany]
        obtain ⟨-, p, hp1, -, hp3⟩ := hmoved s hs
        rw [hms, hp3, hp1]
        rfl
      · have hany : ¬ (List.range t).any (fun s => decide (m = ancestor q.items.length s))
            = true := by
          rw [List.any_eq_true]
          rintro ⟨s, hs, hms⟩
          exact h2 ⟨s, List.mem_range.mp hs, by simpa using hms⟩
        rw [if_neg hany]
        have hne : ∀ s, s ≤ t → m ≠ ancestor q.items.length s := by
          intro s hs hc
          by_cases hst : s < t
          · exact h2 ⟨s, hst, hc⟩
          · have : s = t := by omega
            subst this
            exact h1 hc
        rw [hother m hne]
        have hmn : m ≠ q.items.length := hne 0 (by omega)
        rw [List.getElem?_eq_getElem (by omega)]
        rfl
  · rw [List.getElem?_eq_none (by omega), List.getElem?_eq_none (by simp; omega)]

end Ref

/-! ## What `siftDown` leaves alone -/

section Frame
variable {K V : Type}

theorem ancestor_add (c a b : Nat) : ancestor c (a + b) = ancestor (ancestor c b) a := by
  unfold ancestor
  exact Function.iterate_add_apply parent a b c

/-- The subtrees of the two children of `i` have no index in common. -/
theorem subtree_right_not_left (i c s : Nat) (hs : ancestor c s = 2 * i + 2) (t : Nat) :
    ancestor c t ≠ 2 * i + 1 := by
  intro ht
  by_cases hts : t ≤ s
  · have h1 : ancestor c s = ancestor (ancestor c t) (s - t) := by
      rw [← ancestor_add]; congr 1; omega
    rw [ht] at h1
    have := ancestor_le (2 * i + 1) (s - t)
    omega
  · have h1 : ancestor c t = ancestor (ancestor c s) (t - s - 1 + 1) := by
      rw [← ancestor_add]; congr 1; omega
    rw [hs, ancestor_succ] at h1
    have h2 : parent (2 * i + 2) = i := by unfold parent; omega
    rw [h2] at h1
    have := ancestor_le i (t - s - 1)
    omega

variable [LE K] [LT K] [DecidableRel (LE.le : K → K → Prop)]
  [DecidableRel (LT.lt : K → K → Prop)]

/-- The loop of `siftDown` started at `i` writes only at `i` and below `i`. -/
theorem siftDownLoop_frame (fuel : Nat) (items : List (item K V)) (i : Nat)
    (hi : i < items.length) (hf : items.length - i ≤ fuel) :
    ∃ r, siftDownLoop fuel items items.length i = (.ok (), r) ∧
      r.length = items.length ∧
      ∀ m, (∀ t, ancestor m t ≠ i) → r[m]? = items[m]? := by
  induction fuel generalizing items i with
  | zero => omega
  | succ fuel ih =>
    obtain ⟨mm, hsel, hm, hcase⟩ := selectMin_ok items i hi
    rw [siftDownLoop_step fuel items i mm hi hm hsel]
    split
    · exact ⟨items, rfl, rfl, fun m _ => rfl⟩
    · rename_i hne
      have hlen : ((items.set i items[mm]).set mm items[i]).length = items.length := by simp
      obtain ⟨r, hr, hrl, hframe⟩ := ih ((items.set i items[mm]).set mm items[i]) mm
        (by rw [hlen]; exact hm) (by rw [hlen]; omega)
      rw [hlen] at hr
      refine ⟨r, hr, by rw [hrl, hlen], ?_⟩
      intro m hmi
      have hpm : parent mm = i := by unfold parent; omega
      have h1 : ∀ t, ancestor m t ≠ mm := by
        intro t ht
        apply hmi (t + 1)
        rw [ancestor_succ_parent, ht, hpm]
      rw [hframe m h1]
      exact swap_get?_other items _ _ m hi hm (hmi 0) (h1 0)

end Frame

section FrameL
variable {K V : Type}
variable [LinearOrder K]

/-- One iteration of `siftDown` chooses the right child only if its key is `<`
the key of the left child. -/
theorem selectMin_right (items : List (item K V)) (i : Nat)
    (hsel : selectMin items items.length i = .ok (2 * i + 2)) :
    ∃ (_ : 2 * i + 2 < items.length), items[2 * i + 2].Key < items[2 * i + 1].Key := by
  unfold selectMin at hsel
  by_cases h1 : 2 * i + 1 < items.length
  · have hi : i < items.length := by omega
    by_cases c1 : items[2 * i + 1].Key < items[i].Key
    · by_cases h2 : 2 * i + 2 < items.length
      · by_cases c2 : items[2 * i + 2].Key < items[2 * i + 1].Key
        · exact ⟨h2, c2⟩
        · simp [h1, h2, keyLT_ok, hi, c1, c2] at hsel
      · simp [h1, h2, keyLT_ok, hi, c1] at hsel
    · by_cases h2 : 2 * i + 2 < items.length
      · by_cases c2 : items[2 * i + 2].Key < items[i].Key
        · exact ⟨h2, lt_of_lt_of_le c2 (not_lt.mp c1)⟩
        · simp [h1, h2, keyLT_ok, hi, c1, c2] at hsel
          omega
      · simp [h1, h2, keyLT_ok, hi, c1] at hsel
        omega
  · have h2 : ¬ 2 * i + 2 < items.length := by omega
    simp [h1, h2] at hsel
    omega

theorem selectMin_left_tie (items : List (item K V)) (i : Nat)
    (h2 : 2 * i + 2 < items.length)
    (heq : items[2 * i + 1].Key = items[2 * i + 2].Key)
    (hlt : items[2 * i + 1].Key < items[i].Key) :
    selectMin items items.length i = .ok (2 * i + 1) := by
  have h1 : 2 * i + 1 < items.length := by omega
  have hi : i < items.length := by omega
  have c2 : ¬ items[2 * i + 2].Key < items[2 * i + 1].Key := by
    rw [heq]; exact lt_irrefl _
  simp [selectMin, h1, h2, keyLT_ok, hi, hlt, c2]

theorem siftDown_left_tie (items : List (item K V)) (i : Nat)
    (h2 : 2 * i + 2 < items.length)
    (heq : items[2 * i + 1].Key = items[2 * i + 2].Key)
    (hlt : items[2 * i + 1].Key < items[i].Key) :
    ∃ r, siftDown ({ items := items } : Queue K V) i = (.ok (), { items := r }) ∧
      r.length = items.length ∧
      r[i]? = some items[2 * i + 1] ∧
      ∀ c t, ancestor c t = 2 * i + 2 → r[c]? = items[c]? := by
  have h1 : 2 * i + 1 < items.length := by omega
  have hi : i < items.length := by omega
  have hsel := selectMin_left_tie items i h2 heq hlt
  have hlen : ((items.set i items[2 * i + 1]).set (2 * i + 1) items[i]).length
      = items.length := by simp
  obtain ⟨r, hr, hrl, hframe⟩ := siftDownLoop_frame items.length
    ((items.set i items[2 * i + 1]).set (2 * i + 1) items[i]) (2 * i + 1)
    (by rw [hlen]; exact h1) (by rw [hlen]; omega)
  rw [hlen] at hr
  refine ⟨r, ?_, by rw [hrl, hlen], ?_, ?_⟩
  · simp only [siftDown]
    rw [siftDownLoop_step items.length items i (2 * i + 1) hi h1 hsel,
      if_neg (by omega), hr]
  · rw [hframe i (fun t => by have := ancestor_le i t; omega)]
    exact swap_get?_fst items _ _ hi h1 (by omega)
  · intro c s hs
    rw [hframe c (subtree_right_not_left i c s hs)]
    have hci : c ≠ i := by
      intro h
      have := ancestor_le c s
      omega
    have hcl : c ≠ 2 * i + 1 := subtree_right_not_left i c s hs 0
    exact swap_get?_other items _ _ c hi h1 hci hcl

end FrameL

/-! ## Carrying the keys to another key type, and `float64` keys -/

section Transfer
variable {K1 K2 V : Type}
variable [LE K1] [LT K1] [DecidableRel (LE.le : K1 → K1 → Prop)]
  [DecidableRel (LT.lt : K1 → K1 → Prop)]
variable [LE K2] [LT K2] [DecidableRel (LE.le : K2 → K2 → Prop)]
  [DecidableRel (LT.lt : K2 → K2 → Prop)]
variable (f : K1 → K2)

theorem keyLE_map (hle : ∀ a b : K1, f a ≤ f b ↔ a ≤ b) (items : List (item K1 V)) (a b : Nat) :
    keyLE (items.map (mapItem f)) a b = keyLE items a b := by
  simp only [keyLE, List.getElem?_map]
  cases items[a]? <;> cases items[b]? <;> simp [mapItem, hle]

theorem keyLT_map (hlt : ∀ a b : K1, f a < f b ↔ a < b) (items : List (item K1 V)) (a b : Nat) :
    keyLT (items.map (mapItem f)) a b = keyLT items a b := by
  simp only [keyLT, List.getElem?_map]
  cases items[a]? <;> cases items[b]? <;> simp [mapItem, hlt]

theorem swapAt_map (items : List (item K1 V)) (a b : Nat) :
    swapAt (items.map (mapItem f)) a b
      = (swapAt items a b).map (List.map (mapItem f)) := by
  simp only [swapAt, List.getElem?_map]
  cases items[b]? <;> cases items[a]? <;> simp [Except.map, List.map_set]

theorem siftUpLoop_map (hle : ∀ a b : K1, f a ≤ f b ↔ a ≤ b)
    (fuel : Nat) (items : List (item K1 V)) (i : Nat) :
    siftUpLoop fuel (items.map (mapItem f)) i
      = ((siftUpLoop fuel items i).1, (siftUpLoop fuel items i).2.map (mapItem f)) := by
  induction fuel generalizing items i with
  | zero =>
    simp only [siftUpLoop]
    split <;> rfl
  | succ fuel ih =>
    simp only [siftUpLoop]
    split
    · rw [keyLE_map f hle]
      cases hk : keyLE items ((i - 1) / 2) i with
      | error e => rfl
      | ok b =>
        cases b with
        | true => rfl
        | false =>
          simp only
          rw [swapAt_map]
          cases hs : swapAt items ((i - 1) / 2) i with
          | error e => rfl
          | ok items1 =>
            simp only [Except.map]
            exact ih items1 ((i - 1) / 2)
    · rfl

theorem selectMin_map (hlt : ∀ a b : K1, f a < f b ↔ a < b)
    (items : List (item K1 V)) (n i : Nat) :
    selectMin (items.map (mapItem f)) n i = selectMin items n i := by
  simp only [selectMin, keyLT_map f hlt]

theorem siftDownLoop_map (hlt : ∀ a b : K1, f a < f b ↔ a < b)
    (fuel : Nat) (items : List (item K1 V)) (n i : Nat) :
    siftDownLoop fuel (items.map (mapItem f)) n i
      = ((siftDownLoop fuel items n i).1,
         (siftDownLoop fuel items n i).2.map (mapItem f)) := by
  induction fuel generalizing items i with
  | zero => rfl
  | succ fuel ih =>
    simp only [siftDownLoop]
    rw [selectMin_map f hlt]
    cases hk : selectMin items n i with
    | error e => rfl
    | ok m =>
      simp only
      split
      · rfl
      · rw [swapAt_map]
        cases hs : swapAt items i m with
        | error e => rfl
        | ok items1 =>
          simp only [Except.map]
          exact ih items1 m

theorem readAt_map (items : List (item K1 V)) (j : Nat) :
    readAt (items.map (mapItem f)) j = (readAt items j).map (mapItem f) := by
  simp only [readAt, List.getElem?_map]
  cases items[j]? <;> rfl

theorem siftUp_map (hle : ∀ a b : K1, f a ≤ f b ↔ a ≤ b) (items : List (item K1 V)) (i : Nat) :
    siftUp ({ items := items.map (mapItem f) } : Queue K2 V) i
      = ((siftUp ({ items := items } : Queue K1 V) i).1,
         { items := (siftUp ({ items := items } : Queue K1 V) i).2.items.map (mapItem f) }) := by
  simp only [siftUp, siftUpLoop_map f hle]

theorem siftDown_map (hlt : ∀ a b : K1, f a < f b ↔ a < b) (items : List (item K1 V)) (i : Nat) :
    siftDown ({ items := items.map (mapItem f) } : Queue K2 V) i
      = ((siftDown ({ items := items } : Queue K1 V) i).1,
         { items := (siftDown ({ items := items } : Queue K1 V) i).2.items.map (mapItem f) }) := by
  simp only [siftDown, siftDownLoop_map f hlt, List.length_map]

theorem Enqueue_map (hle : ∀ a b : K1, f a ≤ f b ↔ a ≤ b) (items : List (item K1 V))
    (k : K1) (v : V) :
    Enqueue ({ items := items.map (mapItem f) } : Queue K2 V) (f k) v
      = ((Enqueue ({ items := items } : Queue K1 V) k v).1,
         { items := (Enqueue ({ items := items } : Queue K1 V) k v).2.items.map (mapItem f) }) := by
  have h : items.map (mapItem f) ++ [({ Key := f k, Value := v } : item K2 V)]
      = (items ++ [({ Key := k, Value := v } : item K1 V)]).map (mapItem f) := by
    simp [mapItem]
  simp only [Enqueue, h, siftUp_map f hle, List.length_map]

theorem Dequeue_map (hlt : ∀ a b : K1, f a < f b ↔ a < b) (items : List (item K1 V)) :
    Dequeue ({ items := items.map (mapItem f) } : Queue K2 V)
      = ((Dequeue ({ items := items } : Queue K1 V)).1.map (mapPair f),
         { items := (Dequeue ({ items := items } : Queue K1 V)).2.items.map (mapItem f) }) := by
  simp only [Dequeue, List.length_map, readAt_map]
  split
  · rfl
  · cases h0 : readAt items 0 with
    | error e => rfl
    | ok m =>
      simp only [Except.map]
      cases h1 : readAt items (items.length - 1) with
      | error e => rfl
      | ok l =>
        simp only [Except.map]
        have h : ((items.map (mapItem f)).set 0 (mapItem f l)).take (items.length - 1)
            = (((items.set 0 l).take (items.length - 1))).map (mapItem f) := by
          simp [List.map_set, List.map_take]
        rw [h]
        simp only [List.length_map, siftDown_map f hlt]
        split
        · cases hs : siftDown ({ items := (items.set 0 l).take (items.length - 1) }
            : Queue K1 V) 0 with
          | mk res q2 =>
            cases res with
            | error e => rfl
            | ok u => rfl
        · rfl

theorem heapInv_map (hle : ∀ a b : K1, f a ≤ f b ↔ a ≤ b) (items : List (item K1 V)) :
    HeapInv (items.map (mapItem f)) ↔ HeapInv items := by
  unfold HeapInv
  constructor
  · intro h i hi h1
    have := h i (by simpa using hi) h1
    simpa [mapItem, hle] using this
  · intro h i hi h1
    have := h i (by simpa using hi) h1
    simpa [mapItem, hle] using this

theorem enqueueAll_map (hle : ∀ a b : K1, f a ≤ f b ↔ a ≤ b) (l : List (K1 × V))
    (items : List (item K1 V)) :
    enqueueAll ({ items := items.map (mapItem f) } : Queue K2 V) (l.map (mapPair f))
      = ((enqueueAll ({ items := items } : Queue K1 V) l).1,
         { items := (enqueueAll ({ items := items } : Queue K1 V) l).2.items.map
            (mapItem f) }) := by
  induction l generalizing items with
  | nil => rfl
  | cons kv rest ih =>
    simp only [List.map_cons, enqueueAll, mapPair, Enqueue_map f hle]
    cases hs : Enqueue ({ items := items } : Queue K1 V) kv.1 kv.2 with
    | mk res q2 =>
      cases res with
      | error e => rfl
      | ok u => exact ih q2.items

theorem drain_map (hlt : ∀ a b : K1, f a < f b ↔ a < b) (fuel : Nat)
    (items : List (item K1 V)) :
    drain fuel ({ items := items.map (mapItem f) } : Queue K2 V)
      = ((drain fuel ({ items := items } : Queue K1 V)).1.map (List.map (mapPair f)),
         { items := (drain fuel ({ items := items } : Queue K1 V)).2.items.map
            (mapItem f) }) := by
  induction fuel generalizing items with
  | zero =>
    simp only [drain, IsEmpty, List.length_map]
    split <;> rfl
  | succ fuel ih =>
    simp only [drain, IsEmpty, List.length_map, Dequeue_map f hlt]
    split
    · rfl
    · cases hs : Dequeue ({ items := items } : Queue K1 V) with
      | mk res q2 =>
        cases res with
        | error e => rfl
        | ok kv =>
          simp only [Except.map]
          rw [ih q2.items]
          cases hd : drain fuel ({ items := q2.items } : Queue K1 V) with
          | mk res2 q3 =>
            cases res2 with
            | error e => rfl
            | ok out => rfl

end Transfer

section Float
variable {E V : Type}

theorem num_le_num [LE E] (a b : E) : (GoFloat.num a ≤ GoFloat.num b) ↔ a ≤ b := Iff.rfl

theorem num_lt_num [LT E] (a b : E) : (GoFloat.num a < GoFloat.num b) ↔ a < b := Iff.rfl

/-- An array without a NaN key is an array of numbers. -/
theorem items_of_no_nan (items : List (item (GoFloat E) V))
    (h : ∀ x ∈ items, x.Key ≠ GoFloat.nan) :
    ∃ items0 : List (item E V), items = items0.map (mapItem GoFloat.num) := by
  induction items with
  | nil => exact ⟨[], rfl⟩
  | cons x rest ih =>
    obtain ⟨r0, hr0⟩ := ih (fun y hy => h y (List.mem_cons_of_mem x hy))
    have hx := h x (List.mem_cons_self x rest)
    cases x with
    | mk key value =>
      cases key with
      | nan => exact absurd rfl hx
      | num e => exact ⟨{ Key := e, Value := value } :: r0, by rw [hr0]; rfl⟩

theorem pairs_of_no_nan (l : List (GoFloat E × V)) (h : ∀ kv ∈ l, kv.1 ≠ GoFloat.nan) :
    ∃ l0 : List (E × V), l = l0.map (mapPair GoFloat.num) := by
  induction l with
  | nil => exact ⟨[], rfl⟩
  | cons x rest ih =>
    obtain ⟨r0, hr0⟩ := ih (fun y hy => h y (List.mem_cons_of_mem x hy))
    have hx := h x (List.mem_cons_self x rest)
    cases x with
    | mk key value =>
      cases key with
      | nan => exact absurd rfl hx
      | num e => exact ⟨(e, value) :: r0, by rw [hr0]; rfl⟩

theorem no_nan_map (items0 : List (item E V)) :
    ∀ x ∈ items0.map (mapItem (GoFloat.num : E → GoFloat E)), x.Key ≠ GoFloat.nan := by
  intro x hx
  obtain ⟨y, -, rfl⟩ := List.mem_map.mp hx
  simp [mapItem]

variable [LinearOrder E]

theorem Dequeue_heap_all (q : Queue E V) (hh : HeapInv q.items) :
    HeapInv (Dequeue q).2.items := by
  cases q with
  | mk items =>
    cases items with
    | nil => rw [Dequeue_nil]; exact hh
    | cons x rest => exact Dequeue_heap x rest hh

theorem float_Enqueue_heap (q : Queue (GoFloat E) V)
    (hq : ∀ x ∈ q.items, x.Key ≠ GoFloat.nan) (hh : HeapInv q.items)
    (k : GoFloat E) (hk : k ≠ GoFloat.nan) (v : V) :
    HeapInv (Enqueue q k v).2.items ∧ ∀ x ∈ (Enqueue q k v).2.items, x.Key ≠ GoFloat.nan := by
  obtain ⟨items0, h0⟩ := items_of_no_nan q.items hq
  cases q with
  | mk items =>
    simp only at h0 hh
    subst h0
    cases k with
    | nan => exact absurd rfl hk
    | num k0 =>
      rw [Enqueue_map GoFloat.num num_le_num]
      rw [heapInv_map GoFloat.num num_le_num] at hh
      exact ⟨(heapInv_map GoFloat.num num_le_num _).mpr (Enqueue_heap _ k0 v hh),
        no_nan_map _⟩

theorem float_Dequeue_heap (q : Queue (GoFloat E) V)
    (hq : ∀ x ∈ q.items, x.Key ≠ GoFloat.nan) (hh : HeapInv q.items) :
    HeapInv (Dequeue q).2.items ∧ ∀ x ∈ (Dequeue q).2.items, x.Key ≠ GoFloat.nan := by
  obtain ⟨items0, h0⟩ := items_of_no_nan q.items hq
  cases q with
  | mk items =>
    simp only at h0 hh
    subst h0
    rw [Dequeue_map GoFloat.num num_lt_num]
    rw [heapInv_map GoFloat.num num_le_num] at hh
    exact ⟨(heapInv_map GoFloat.num num_le_num _).mpr (Dequeue_heap_all _ hh),
      no_nan_map _⟩

theorem float_sorted (l : List (GoFloat E × V)) (hl : ∀ kv ∈ l, kv.1 ≠ GoFloat.nan) :
    ∃ (q1 : Queue (GoFloat E) V) (out : List (GoFloat E × V)),
      enqueueAll NewQueue l = (.ok (), q1) ∧ HeapInv q1.items ∧
      drain (Count q1) q1 = (.ok out, { items := [] }) ∧
      List.Sorted (fun a b => a ≤ b) (out.map Prod.fst) ∧
      (out.map Prod.fst).Perm (l.map Prod.fst) := by
  obtain ⟨l0, rfl⟩ := pairs_of_no_nan l hl
  obtain ⟨a, ha, hpa⟩ := enqueueAll_ok l0 (NewQueue : Queue E V)
  have hheap : HeapInv (enqueueAll (NewQueue : Queue E V) l0).2.items :=
    enqueueAll_heap l0 NewQueue (by intro i hi; simp [NewQueue] at hi)
  rw [ha] at hheap
  simp only at hheap
  obtain ⟨out0, hout, hpo, hso⟩ := drain_sorted a.length { items := a } le_rfl hheap
  have hperm : (out0.map Prod.fst).Perm (l0.map Prod.fst) := by
    have h1 : (out0.map toItem).Perm (l0.map toItem) := by
      refine hpo.trans ?_
      simpa [NewQueue] using hpa
    have h2 := h1.map item.Key
    simpa [List.map_map, Function.comp_def, toItem] using h2
  have hen : enqueueAll (NewQueue : Queue (GoFloat E) V) (l0.map (mapPair GoFloat.num))
      = (.ok (), { items := a.map (mapItem GoFloat.num) }) := by
    have := enqueueAll_map GoFloat.num num_le_num l0 ([] : List (item E V))
    rw [show ({ items := [] } : Queue E V) = NewQueue from rfl, ha] at this
    exact this
  have hdr : drain a.length ({ items := a.map (mapItem GoFloat.num) } : Queue (GoFloat E) V)
      = (.ok (out0.map (mapPair GoFloat.num)), { items := [] }) := by
    rw [drain_map GoFloat.num num_lt_num, hout]
    rfl
  refine ⟨{ items := a.map (mapItem GoFloat.num) }, out0.map (mapPair GoFloat.num), hen,
    (heapInv_map GoFloat.num num_le_num _).mpr hheap, ?_, ?_, ?_⟩
  · simpa [Count] using hdr
  · have e : (out0.map (mapPair GoFloat.num)).map Prod.fst
        = (out0.map Prod.fst).map GoFloat.num := by
      simp [List.map_map, Function.comp_def, mapPair]
    rw [e]
    exact List.pairwise_map.mpr hso
  · have e : ∀ l1 : List (E × V), (l1.map (mapPair GoFloat.num)).map Prod.fst
        = (l1.map Prod.fst).map GoFloat.num := by
      intro l1
      simp [List.map_map, Function.comp_def, mapPair]
    rw [e, e]
    exact hperm.map _

end Float

/-! ## `Enqueue` of a new minimum and `Dequeue` -/

section Round
variable {K V : Type}
variable [LinearOrder K]

/-- One iteration of `siftDown` at an index `i` inside the array chooses `i`
itself when every child of `i` inside the array has a key `>=` the key at `i`. -/
theorem selectMin_self (items : List (item K V)) (i : Nat) (hi : i < items.length)
    (hl : ∀ (h : 2 * i + 1 < items.length), items[i].Key ≤ items[2 * i + 1].Key)
    (hr : ∀ (h : 2 * i + 2 < items.length), items[i].Key ≤ items[2 * i + 2].Key) :
    selectMin items items.length i = .ok i := by
  by_cases h1 : 2 * i + 1 < items.length
  · have c1 : ¬ items[2 * i + 1].Key < items[i].Key := not_lt.mpr (hl h1)
    by_cases h2 : 2 * i + 2 < items.length
    · have c2 : ¬ items[2 * i + 2].Key < items[i].Key := not_lt.mpr (hr h2)
      simp [selectMin, h1, h2, keyLT_ok, hi, c1, c2]
    · simp [selectMin, h1, h2, keyLT_ok, hi, c1]
  · exact selectMin_out _ _ _ hi (by omega)

theorem getElem_of_getElem? (A B : List (item K V)) (a b : Nat) (ha : a < A.length)
    (hb : b < B.length) (h : A[a]? = B[b]?) : A[a] = B[b] := by
  rw [List.getElem?_eq_getElem ha, List.getElem?_eq_getElem hb] at h
  exact Option.some.inj h

/-- In a heap the key at an ancestor of `b` is `<=` the key at `b`. -/
theorem heap_ancestor_le (old : List (item K V)) (hh : HeapInv old) (b : Nat)
    (hb : b < old.length) (u a : Nat) (ha : a < old.length) (hau : a = ancestor b u) :
    old[a].Key ≤ old[b].Key := by
  induction u generalizing a with
  | zero =>
    rw [ancestor_zero] at hau
    subst hau
    exact le_refl _
  | succ u ih =>
    have hc : ancestor b u < old.length := lt_of_le_of_lt (ancestor_le b u) hb
    have h1 := ih (ancestor b u) hc rfl
    rw [ancestor_succ_parent] at hau
    by_cases h0 : ancestor b u = 0
    · have : a = ancestor b u := by rw [hau, h0]; rfl
      subst this
      exact h1
    · refine le_trans ?_ h1
      exact (heapInv_iff old).mp hh (ancestor b u) a hc ha (by omega) (by rw [hau]; rfl)

/-- The loop of `siftDown` undoes the shift that `siftUp` made along the ancestor
chain of the leaf `n`: started at the chain position `u` steps above `n`, in an
array that holds the old entry of `parent(n)` there and, at every chain position
below, the old entry of its parent, it ends in the old array. -/
theorem siftDownLoop_restore (old : List (item K V)) (n : Nat) (hn : old.length = n)
    (hh : HeapInv old)
    (hd : ∀ (i j : Nat) (hi : i < old.length) (hj : j < old.length),
      i ≠ j → old[i].Key ≠ old[j].Key)
    (t : Nat) (hpos : ∀ s, s < t → 0 < ancestor n s)
    (u : Nat) (hu1 : 1 ≤ u) (hut : u ≤ t) :
    ∀ (A : List (item K V)) (fuel : Nat), A.length = n →
      A[ancestor n u]? = old[ancestor n 1]? →
      (∀ s, 1 ≤ s → s < u → A[ancestor n s]? = old[ancestor n (s + 1)]?) →
      (∀ m, (∀ s, 1 ≤ s → s ≤ u → m ≠ ancestor n s) → A[m]? = old[m]?) →
      n - ancestor n u ≤ fuel →
      siftDownLoop fuel A n (ancestor n u) = (.ok (), old) := by
  have hlt : ∀ s1 s2, s1 < s2 → s2 ≤ t → ancestor n s2 < ancestor n s1 :=
    fun s1 s2 h12 h2t => ancestor_lt n s1 s2 h12 (fun w hw => hpos w (by omega))
  have hn0 : ancestor n 0 = n := rfl
  induction u, hu1 using Nat.le_induction with
  | base =>
    intro A fuel hlen hA1 hA2 hA3 hf
    have hp : ancestor n 1 < n := by have := hlt 0 1 (by omega) hut; omega
    have hAold : A = old := by
      apply List.ext_getElem?
      intro m
      by_cases hm : m = ancestor n 1
      · rw [hm]; exact hA1
      · exact hA3 m (fun s h1 h2 => by
          have : s = 1 := by omega
          subst this
          exact hm)
    subst hAold
    obtain ⟨g, rfl⟩ : ∃ g, fuel = g + 1 := ⟨fuel - 1, by omega⟩
    apply siftDownLoop_stay
    rw [← hlen]
    apply selectMin_self _ _ (by rw [hlen]; exact hp)
    · intro h
      exact (heapInv_iff A).mp hh _ _ h (by omega) (by omega) (by omega)
    · intro h
      exact (heapInv_iff A).mp hh _ _ h (by omega) (by omega) (by omega)
  | succ u hu1 ih =>
    intro A fuel hlen hA1 hA2 hA3 hf
    have hcpos : 0 < ancestor n u := hpos u (by omega)
    have hac : ancestor n (u + 1) = (ancestor n u - 1) / 2 := ancestor_succ_parent n u
    have hcn : ancestor n u < n := by have := hlt 0 u (by omega) (by omega); omega
    have hx1 : ancestor n 1 < n := by have := hlt 0 1 (by omega) (by omega); omega
    have ha : ancestor n (u + 1) < A.length := by omega
    have hc : ancestor n u < A.length := by omega
    -- the entries at the two chain positions
    have hAa : A[ancestor n (u + 1)] = old[ancestor n 1] :=
      getElem_of_getElem? A old _ _ ha (by omega) hA1
    have hAc : A[ancestor n u] = old[ancestor n (u + 1)] :=
      getElem_of_getElem? A old _ _ hc (by omega) (hA2 u hu1 (by omega))
    have hax1 : ancestor n (u + 1) < ancestor n 1 := hlt 1 (u + 1) (by omega) hut
    have hk1 : old[ancestor n (u + 1)].Key < old[ancestor n 1].Key := by
      refine lt_of_le_of_ne ?_ (hd _ _ (by omega) (by omega) (by omega))
      exact heap_ancestor_le old hh (ancestor n 1) (by omega) u _ (by omega)
        (ancestor_add n u 1)
    obtain ⟨mm, hsel, hmm, hcase⟩ := selectMin_ok A (ancestor n (u + 1)) ha
    have hmin := selectMin_min A (ancestor n (u + 1)) mm ha hmm hsel
    have hmc : mm = ancestor n u := by
      by_contra hne
      have hle := hmin (ancestor n u) hc (by omega)
      rw [hAc] at hle
      by_cases hma : mm = ancestor n (u + 1)
      · subst hma
        rw [hAa] at hle
        exact absurd hle (not_le.mpr hk1)
      · have hchain : ∀ s, 1 ≤ s → s ≤ u + 1 → mm ≠ ancestor n s := by
          intro s h1 h2 hms
          by_cases hsu : s < u
          · have h3 := hlt (s + 1) (u + 1) (by omega) hut
            have h4 : ancestor n (s + 1) = (ancestor n s - 1) / 2 := ancestor_succ_parent n s
            omega
          · by_cases hsu2 : s = u
            · subst hsu2; exact hne hms
            · have : s = u + 1 := by omega
              subst this; exact hma hms
        have hAm : A[mm] = old[mm] :=
          getElem_of_getElem? A old _ _ hmm (by omega) (hA3 mm hchain)
        rw [hAm] at hle
        have hheap : old[ancestor n (u + 1)].Key ≤ old[mm].Key :=
          (heapInv_iff old).mp hh mm _ (by omega) (by omega) (by omega) (by omega)
        exact hd mm (ancestor n (u + 1)) (by omega) (by omega) hma (le_antisymm hle hheap)
    subst hmc
    obtain ⟨g, rfl⟩ : ∃ g, fuel = g + 1 := ⟨fuel - 1, by omega⟩
    have e : siftDownLoop (g + 1) A n (ancestor n (u + 1))
        = siftDownLoop (g + 1) A A.length (ancestor n (u + 1)) := by rw [hlen]
    rw [e, siftDownLoop_step g A _ _ ha hc hsel, if_neg (by omega), hlen]
    apply ih (by omega)
    · simpa using hlen
    · rw [swap_get?_snd A _ _ ha hc, ← List.getElem?_eq_getElem ha]
      exact hA1
    · intro s h1 h2
      have h3 := hlt s u h2 (by omega)
      rw [swap_get?_other A _ _ _ ha hc (by omega) (by omega)]
      exact hA2 s h1 (by omega)
    · intro m hm
      have hmc : m ≠ ancestor n u := hm u hu1 le_rfl
      by_cases hma : m = ancestor n (u + 1)
      · subst hma
        rw [swap_get?_fst A _ _ ha hc (by omega), ← List.getElem?_eq_getElem hc]
        exact hA2 u hu1 (by omega)
      · rw [swap_get?_other A _ _ m ha hc hma hmc]
        exact hA3 m (fun s h1 h2 => by
          by_cases hs : s ≤ u
          · exact hm s h1 hs
          · have : s = u + 1 := by omega
            subst this; exact hma)
    · omega

/-- `Enqueue` of a key below every stored key, then `Dequeue`: the pair comes back
and the array is the array from before the `Enqueue`. -/
theorem Enqueue_Dequeue_restore (q : Queue K V) (hh : HeapInv q.items)
    (hd : (q.items.map item.Key).Nodup) (k : K) (v : V)
    (hk : ∀ x ∈ q.items, k < x.Key) :
    ∃ q1 : Queue K V, Enqueue q k v = (.ok (), q1) ∧ Dequeue q1 = (.ok (k, v), q) := by
  obtain ⟨t, r, hr, hlen, hstop, hmoved, hat, hother⟩ := Enqueue_chain q k v
  have hz : ancestor q.items.length t = 0 := by
    rcases hstop with h | ⟨p, hp1, hp2⟩
    · exact h
    · exfalso
      obtain ⟨hj, hpe⟩ := List.getElem?_eq_some.mp hp1
      have := hk p (by rw [← hpe]; exact List.getElem_mem hj)
      exact absurd hp2 (not_le.mpr this)
  have hdi : ∀ (i j : Nat) (hi : i < q.items.length) (hj : j < q.items.length),
      i ≠ j → q.items[i].Key ≠ q.items[j].Key := by
    have hnd := List.nodup_iff_getElem?_ne_getElem?.mp hd
    intro i j hi hj hij heq
    rcases Nat.lt_or_gt_of_ne hij with h | h
    · apply hnd i j h (by simpa using hj)
      simp [List.getElem?_eq_getElem, hi, hj, heq]
    · apply hnd j i h (by simpa using hi)
      simp [List.getElem?_eq_getElem, hi, hj, heq]
  rw [hz] at hat
  cases r with
  | nil => simp at hat
  | cons x rest =>
    have hx : x = { Key := k, Value := v } := by simpa using hat
    have hnr : rest.length = q.items.length := by simpa using hlen
    refine ⟨_, hr, ?_⟩
    rw [Dequeue_cons]
    by_cases hn : rest.length > 0
    · rw [if_pos hn]
      have ht1 : 1 ≤ t := by
        rcases Nat.eq_zero_or_pos t with h0 | h0
        · subst h0
          rw [ancestor_zero] at hz
          omega
        · exact h0
      have hpos : ∀ s, s < t → 0 < ancestor q.items.length s := fun s hs => (hmoved s hs).1
      obtain ⟨D, hD⟩ : ∃ D, D = ((x :: rest).set 0 ((x :: rest)[rest.length])).take rest.length :=
        ⟨_, rfl⟩
      rw [← hD]
      have hDlen : D.length = q.items.length := by
        rw [hD]; simp; omega
      have hD0 : D[0]? = (x :: rest)[q.items.length]? := by
        rw [hD, List.getElem?_take_of_lt hn, List.getElem?_set_self (by simp),
          List.getElem?_eq_getElem (by simp; omega)]
        simp [hnr]
      have hDm : ∀ m, 0 < m → m < q.items.length → D[m]? = (x :: rest)[m]? := by
        intro m h0 hm
        rw [hD, List.getElem?_take_of_lt (by omega), List.getElem?_set_ne (by omega)]
      have hDn : ∀ m, q.items.length ≤ m → D[m]? = none := by
        intro m hm
        rw [hD]
        exact List.getElem?_take_eq_none (by omega)
      have hres := siftDownLoop_restore q.items q.items.length rfl hh hdi t hpos t ht1 le_rfl
        D (q.items.length + 1) hDlen
        (by
          rw [hz, hD0]
          obtain ⟨-, p, hp1, -, hp3⟩ := hmoved 0 (by omega)
          rw [ancestor_zero] at hp1 hp3
          rw [hp3, ← hp1]
          rfl)
        (by
          intro s h1 h2
          obtain ⟨hp0, p, hp1, -, hp3⟩ := hmoved s h2
          have hlt := ancestor_lt q.items.length 0 s (by omega)
            (fun w hw => hpos w (by omega))
          rw [ancestor_zero] at hlt
          rw [hDm _ hp0 hlt, hp3, ← hp1, ancestor_succ_parent])
        (by
          intro m hm
          have hm0 : m ≠ 0 := by
            have := hm t ht1 le_rfl
            rw [hz] at this
            exact this
          by_cases hlt : m < q.items.length
          · rw [hDm m (by omega) hlt]
            exact hother m (fun s hs => by
              by_cases h0 : s = 0
              · subst h0; rw [ancestor_zero]; omega
              · exact hm s (by omega) hs)
          · rw [hDn m (by omega), List.getElem?_eq_none (by omega)])
        (by omega)
      rw [hz] at hres
      have hsd : siftDown ({ items := D } : Queue K V) 0 = (.ok (), q) := by
        simp only [siftDown, hDlen, hres]
      rw [hsd, hx]
    · rw [if_neg hn]
      have : q.items = [] := List.length_eq_zero.mp (by omega)
      rw [hx]
      cases q with
      | mk items =>
        simp only at this
        subst this
        rfl

end Round

/-! ## The claims -/

section Claims

variable {K V : Type}

/-- C1 (heap invariant).  For every linearly ordered key type and every queue
reached from `NewQueue()` by calls of `Enqueue`, of `Dequeue` on a non-empty
queue and of `TryDequeue`, the key at index `(i - 1) / 2` of the backing array is
`<=` the key at index `i`, for every `i` with `1 <= i < Count()`. -/
theorem heap_invariant [LinearOrder K] [Inhabited K] [Inhabited V] (q : Queue K V)
    (h : Reachable q) (i : Nat) (h1 : 1 ≤ i) (hi : i < Count q) :
    (q.items.get ⟨(i - 1) / 2, Nat.lt_of_le_of_lt
      (Nat.le_trans (Nat.div_le_self _ _) (Nat.sub_le _ _)) hi⟩).Key
      ≤ (q.items.get ⟨i, hi⟩).Key :=
  reachable_heap q h i hi h1

theorem heap_invariant_witness :
    Reachable (Dequeue (Enqueue (Enqueue (Enqueue (Enqueue
      (NewQueue : Queue Int String) 5 "five").2 3 "three").2 7 "seven").2 1 "one").2).2 ∧
    ((Dequeue (Enqueue (Enqueue (Enqueue (Enqueue
      (NewQueue : Queue Int String) 5 "five").2 3 "three").2 7 "seven").2 1 "one").2).2.items.get
        ⟨(2 - 1) / 2, by decide⟩).Key
      ≤ ((Dequeue (Enqueue (Enqueue (Enqueue (Enqueue
      (NewQueue : Queue Int String) 5 "five").2 3 "three").2 7 "seven").2 1 "one").2).2.items.get
        ⟨2, by decide⟩).Key :=
  ⟨.dequeue _ (.enqueue _ _ _ (.enqueue _ _ _ (.enqueue _ _ _ (.enqueue _ _ _ .new)))) (by decide),
   heap_invariant _
    (.dequeue _ (.enqueue _ _ _ (.enqueue _ _ _ (.enqueue _ _ _ (.enqueue _ _ _ .new)))) (by decide))
    2 (by decide) (by decide)⟩

/-- C2 (sorted extraction).  For every list of `(key, value)` pairs over a
linearly ordered key type, enqueuing the pairs in the given order into a new
queue returns, calling `Dequeue` until the queue is empty returns and leaves the
queue empty, and the keys come out in non-decreasing order, are a rearrangement
of the enqueued keys, and so are the sorted list of the enqueued keys. -/
theorem sorted_extraction [LinearOrder K] (l : List (K × V)) :
    ∃ (q : Queue K V) (out : List (K × V)),
      enqueueAll NewQueue l = (.ok (), q) ∧
      drain (Count q) q = (.ok out, { items := [] }) ∧
      List.Sorted (fun a b => a ≤ b) (out.map Prod.fst) ∧
      (out.map Prod.fst).Perm (l.map Prod.fst) ∧
      out.map Prod.fst = List.insertionSort (fun a b => a ≤ b) (l.map Prod.fst) := by
  obtain ⟨a, ha, hpa⟩ := enqueueAll_ok l (NewQueue : Queue K V)
  have hheap : HeapInv (enqueueAll (NewQueue : Queue K V) l).2.items :=
    enqueueAll_heap l NewQueue (by intro i hi; simp [NewQueue] at hi)
  rw [ha] at hheap
  obtain ⟨out, hout, hpo, hso⟩ := drain_sorted a.length { items := a } le_rfl hheap
  have hperm : (out.map Prod.fst).Perm (l.map Prod.fst) := by
    have h1 : (out.map toItem).Perm (l.map toItem) := by
      refine hpo.trans ?_
      simpa [NewQueue] using hpa
    have h2 := h1.map item.Key
    simpa [List.map_map, Function.comp_def, toItem] using h2
  refine ⟨{ items := a }, out, ha, hout, hso, hperm, ?_⟩
  exact List.eq_of_perm_of_sorted
    (hperm.trans (List.perm_insertionSort _ _).symm) hso (List.sorted_insertionSort _ _)

/-- C3 (`Dequeue` returns the minimum).  On a non-empty queue whose array has the
heap property, `Dequeue` returns the key and value of an entry that was stored in
the queue, and that key is `<=` the key of every entry stored before the call. -/
theorem Dequeue_returns_min [LinearOrder K] (q : Queue K V) (hne : IsEmpty q = false)
    (hh : HeapInv q.items) :
    ∃ (x : item K V) (q1 : Queue K V),
      Dequeue q = (.ok (x.Key, x.Value), q1) ∧ x ∈ q.items ∧
      ∀ y ∈ q.items, x.Key ≤ y.Key := by
  obtain ⟨x, rest, rfl⟩ := isEmpty_false q hne
  obtain ⟨a, ha, -⟩ := Dequeue_ok x rest
  exact ⟨x, { items := a }, ha, List.mem_cons_self x rest, heap_head_le x rest hh⟩

theorem Dequeue_returns_min_witness :
    ∃ (x : item Int String) (q1 : Queue Int String),
      Dequeue (Enqueue (Enqueue (Enqueue (NewQueue : Queue Int String)
        5 "five").2 3 "three").2 7 "seven").2 = (.ok (x.Key, x.Value), q1) ∧
      x ∈ (Enqueue (Enqueue (Enqueue (NewQueue : Queue Int String)
        5 "five").2 3 "three").2 7 "seven").2.items ∧
      ∀ y ∈ (Enqueue (Enqueue (Enqueue (NewQueue : Queue Int String)
        5 "five").2 3 "three").2 7 "seven").2.items, x.Key ≤ y.Key :=
  Dequeue_returns_min _ (by decide)
    (reachable_heap _ (.enqueue _ _ _ (.enqueue _ _ _ (.enqueue _ _ _ .new))))

/-- The scenario of `TestHeapOperations`: the keys 10, 5, 8, 3, 7, 1, 4, 9, 2, 6
enqueued in that order are dequeued as 1, 2, ..., 10. -/
theorem drain_test_data :
    ((drain 10 (enqueueAll (NewQueue : Queue Int String)
      [(10, "ten"), (5, "five"), (8, "eight"), (3, "three"), (7, "seven"), (1, "one"),
        (4, "four"), (9, "nine"), (2, "two"), (6, "six")]).2).1.map
      (fun out => out.map Prod.fst))
      = .ok [1, 2, 3, 4, 5, 6, 7, 8, 9, 10] := by
  rfl

/-- The scenario of `TestPeek`: after `Enqueue(5, "five")`, `Enqueue(3, "three")`
and `Enqueue(7, "seven")`, `Peek` returns `(3, "three")` and `Count()` is 3. -/
theorem peek_test_data :
    (Peek (enqueueAll (NewQueue : Queue Int String)
      [(5, "five"), (3, "three"), (7, "seven")]).2).1 = .ok (3, "three") ∧
    Count (enqueueAll (NewQueue : Queue Int String)
      [(5, "five"), (3, "three"), (7, "seven")]).2 = 3 :=
  ⟨rfl, rfl⟩

section AnyOrder

variable [LE K] [LT K] [DecidableRel (LE.le : K → K → Prop)]
  [DecidableRel (LT.lt : K → K → Prop)]

/-- C4 (entry conservation).  For every queue, whatever the order on the keys:
`Enqueue(k, v)` returns and the stored entries afterwards are the old entries and
one more `(k, v)`; `Dequeue` on a non-empty queue returns the key and value of
one entry `x` and the old entries are `x` and the entries stored afterwards; and
draining a queue filled from a list returns the pairs of the list, each as often
as it is in the list. -/
theorem entry_conservation (q : Queue K V) (k : K) (v : V) (l : List (K × V)) :
    (∃ q1 : Queue K V, Enqueue q k v = (.ok (), q1) ∧
      q1.items.Perm ({ Key := k, Value := v } :: q.items)) ∧
    (IsEmpty q = false → ∃ (x : item K V) (q1 : Queue K V),
      Dequeue q = (.ok (x.Key, x.Value), q1) ∧ q.items.Perm (x :: q1.items)) ∧
    (∃ (q1 : Queue K V) (out : List (K × V)) (q2 : Queue K V),
      enqueueAll NewQueue l = (.ok (), q1) ∧ drain (Count q1) q1 = (.ok out, q2) ∧
      IsEmpty q2 = true ∧ out.Perm l) := by
  refine ⟨?_, ?_, ?_⟩
  · obtain ⟨a, ha, hpa⟩ := Enqueue_ok q k v
    exact ⟨{ items := a }, ha, hpa.trans (List.perm_append_singleton _ _)⟩
  · intro hne
    obtain ⟨x, rest, rfl⟩ := isEmpty_false q hne
    obtain ⟨a, ha, hpa⟩ := Dequeue_ok x rest
    exact ⟨x, { items := a }, ha, hpa.symm⟩
  · obtain ⟨a, ha, hpa⟩ := enqueueAll_ok l (NewQueue : Queue K V)
    obtain ⟨out, hout, hpo⟩ := drain_ok a.length { items := a } le_rfl
    refine ⟨{ items := a }, out, { items := [] }, ha, hout, rfl, ?_⟩
    have h1 : (out.map toItem).Perm (l.map toItem) := by
      refine hpo.trans ?_
      simpa [NewQueue] using hpa
    have h2 := h1.map (fun x : item K V => (x.Key, x.Value))
    simpa [List.map_map, Function.comp_def, toItem] using h2

theorem entry_conservation_witness :
    IsEmpty ({ items := [⟨5, "a"⟩, ⟨5, "b"⟩] } : Queue Int String) = false ∧
    ∃ (x : item Int String) (q1 : Queue Int String),
      Dequeue ({ items := [⟨5, "a"⟩, ⟨5, "b"⟩] } : Queue Int String)
        = (.ok (x.Key, x.Value), q1) ∧
      List.Perm [⟨5, "a"⟩, ⟨5, "b"⟩] (x :: q1.items) :=
  ⟨by decide,
   (entry_conservation ({ items := [⟨5, "a"⟩, ⟨5, "b"⟩] } : Queue Int String) 5 "c"
    [(5, "a"), (5, "b"), (5, "c")]).2.1 (by decide)⟩

/-- C5 (size accounting).  `NewQueue()` has `Count() = 0`; `Enqueue` raises
`Count()` by exactly 1; `Dequeue` on a non-empty queue lowers it by exactly 1;
a queue reached by `k` calls of `Enqueue` and `m` calls of `Dequeue`, none on an
empty queue, has `m <= k` and `Count() = k - m`; and `IsEmpty()` is true if and
only if `Count() = 0`. -/
theorem size_accounting (q : Queue K V) (key : K) (value : V) :
    Count (NewQueue : Queue K V) = 0 ∧
    Count (Enqueue q key value).2 = Count q + 1 ∧
    (IsEmpty q = false → Count (Dequeue q).2 = Count q - 1 ∧ 1 ≤ Count q) ∧
    (∀ k m : Nat, ReachedBy k m q → m ≤ k ∧ Count q = k - m) ∧
    (IsEmpty q = true ↔ Count q = 0) := by
  refine ⟨rfl, Count_Enqueue q key value, ?_, ?_, ?_⟩
  · intro hne
    have := Count_Dequeue q hne
    omega
  · intro k m h
    have := reachedBy_count k m q h
    omega
  · simp [IsEmpty, Count]

theorem size_accounting_witness :
    ReachedBy 2 1 (Dequeue (Enqueue (Enqueue (NewQueue : Queue Int String)
      5 "five").2 3 "three").2).2 ∧
    (1 ≤ 2 ∧ Count (Dequeue (Enqueue (Enqueue (NewQueue : Queue Int String)
      5 "five").2 3 "three").2).2 = 2 - 1) :=
  ⟨.dequeue _ _ _ (.enqueue _ _ _ _ _ (.enqueue _ _ _ _ _ .new)) (by decide),
   (size_accounting (Dequeue (Enqueue (Enqueue (NewQueue : Queue Int String)
      5 "five").2 3 "three").2).2 7 "seven").2.2.2.1 2 1
    (.dequeue _ _ _ (.enqueue _ _ _ _ _ (.enqueue _ _ _ _ _ .new)) (by decide))⟩

end AnyOrder

/-- C6 (`Peek` returns the minimum entry).  On a non-empty queue whose array has
the heap property, `Peek` returns the key and value of the entry at index 0, that
key is `<=` the key of every stored entry, and a `Dequeue` that follows at once
returns the same pair. -/
theorem Peek_returns_min [LinearOrder K] (q : Queue K V) (hne : IsEmpty q = false)
    (hh : HeapInv q.items) :
    ∃ x : item K V, q.items[0]? = some x ∧
      Peek q = (.ok (x.Key, x.Value), q) ∧
      (∀ y ∈ q.items, x.Key ≤ y.Key) ∧
      (Dequeue (Peek q).2).1 = .ok (x.Key, x.Value) := by
  obtain ⟨x, rest, rfl⟩ := isEmpty_false q hne
  obtain ⟨a, ha, -⟩ := Dequeue_ok x rest
  refine ⟨x, by simp, Peek_cons x rest, heap_head_le x rest hh, ?_⟩
  rw [Peek_cons, ha]

theorem Peek_returns_min_witness :
    ∃ x : item Int String,
      ({ items := [⟨3, "three"⟩, ⟨5, "five"⟩, ⟨7, "seven"⟩] } : Queue Int String).items[0]?
        = some x ∧
      Peek ({ items := [⟨3, "three"⟩, ⟨5, "five"⟩, ⟨7, "seven"⟩] } : Queue Int String)
        = (.ok (x.Key, x.Value), { items := [⟨3, "three"⟩, ⟨5, "five"⟩, ⟨7, "seven"⟩] }) ∧
      (∀ y ∈ ({ items := [⟨3, "three"⟩, ⟨5, "five"⟩, ⟨7, "seven"⟩] }
        : Queue Int String).items, x.Key ≤ y.Key) ∧
      (Dequeue (Peek ({ items := [⟨3, "three"⟩, ⟨5, "five"⟩, ⟨7, "seven"⟩] }
        : Queue Int String)).2).1 = .ok (x.Key, x.Value) :=
  Peek_returns_min _ (by decide) (by unfold HeapInv; decide)

section AnyOrder

variable [LE K] [LT K] [DecidableRel (LE.le : K → K → Prop)]
  [DecidableRel (LT.lt : K → K → Prop)]

/-- C7 (`Peek` stability).  `Peek` and `TryPeek` leave the backing array, and so
`Count()`, unchanged; on a non-empty queue `Peek` returns a pair, and a second
`Peek` with no call in between returns the same pair. -/
theorem Peek_stability [Inhabited K] [Inhabited V] (q : Queue K V)
    (hne : IsEmpty q = false) :
    (Peek q).2 = q ∧ (TryPeek q).2 = q ∧
    Count (Peek q).2 = Count q ∧ Count (TryPeek q).2 = Count q ∧
    ∃ kv : K × V, (Peek q).1 = .ok kv ∧ (Peek (Peek q).2).1 = .ok kv := by
  obtain ⟨x, rest, rfl⟩ := isEmpty_false q hne
  rw [Peek_cons, TryPeek_cons]
  exact ⟨rfl, rfl, rfl, rfl, (x.Key, x.Value), rfl, by rw [Peek_cons]⟩

theorem Peek_stability_witness :
    IsEmpty ({ items := [⟨3, "three"⟩, ⟨5, "five"⟩] } : Queue Int String) = false ∧
    ∃ kv : Int × String,
      (Peek ({ items := [⟨3, "three"⟩, ⟨5, "five"⟩] } : Queue Int String)).1 = .ok kv ∧
      (Peek (Peek ({ items := [⟨3, "three"⟩, ⟨5, "five"⟩] } : Queue Int String)).2).1
        = .ok kv :=
  ⟨by decide,
   (Peek_stability ({ items := [⟨3, "three"⟩, ⟨5, "five"⟩] } : Queue Int String)
    (by decide)).2.2.2.2⟩

/-- C8 (fail-fast contract on an empty queue).  For every queue, whatever the
order on the keys: `Dequeue` panics if and only if the queue is empty, and then
with its own message; `Peek` likewise; a call that panics leaves the queue as it
was; and `Enqueue`, `TryDequeue` and `TryPeek` return on every queue.
(`NewQueue`, `Count` and `IsEmpty` have no panic in their result type.) -/
theorem fail_fast [Inhabited K] [Inhabited V] (q : Queue K V) (key : K) (value : V) :
    ((∃ e, (Dequeue q).1 = .error e) ↔ IsEmpty q = true) ∧
    ((∃ e, (Peek q).1 = .error e) ↔ IsEmpty q = true) ∧
    (IsEmpty q = true → Dequeue q = (.error .emptyDequeue, q)) ∧
    (IsEmpty q = true → Peek q = (.error .emptyPeek, q)) ∧
    (∀ e, (Dequeue q).1 = .error e → (Dequeue q).2 = q) ∧
    (∀ e, (Peek q).1 = .error e → (Peek q).2 = q) ∧
    (Enqueue q key value).1 = .ok () ∧
    (∃ r, (TryDequeue q).1 = .ok r) ∧
    (∃ r, (TryPeek q).1 = .ok r) := by
  have henq : (Enqueue q key value).1 = .ok () := by
    obtain ⟨a, ha, -⟩ := Enqueue_ok q key value
    rw [ha]
  cases q with
  | mk items =>
    cases items with
    | nil =>
      refine ⟨?_, ?_, ?_, ?_, ?_, ?_, henq, ?_, ?_⟩
      · rw [Dequeue_nil]; simp [IsEmpty]
      · rw [Peek_nil]; simp [IsEmpty]
      · intro _; exact Dequeue_nil
      · intro _; exact Peek_nil
      · intro e _; rw [Dequeue_nil]
      · intro e _; rw [Peek_nil]
      · rw [TryDequeue_nil]; exact ⟨_, rfl⟩
      · rw [TryPeek_nil]; exact ⟨_, rfl⟩
    | cons x rest =>
      obtain ⟨a, ha, -⟩ := Dequeue_ok x rest
      refine ⟨?_, ?_, ?_, ?_, ?_, ?_, henq, ?_, ?_⟩
      · rw [ha]; simp [IsEmpty]
      · rw [Peek_cons]; simp [IsEmpty]
      · intro h; simp [IsEmpty] at h
      · intro h; simp [IsEmpty] at h
      · intro e h; rw [ha] at h; simp at h
      · intro e h; rw [Peek_cons]
      · rw [TryDequeue_cons x rest a ha]; exact ⟨_, rfl⟩
      · rw [TryPeek_cons]; exact ⟨_, rfl⟩

theorem fail_fast_witness :
    IsEmpty (NewQueue : Queue Int String) = true ∧
    Dequeue (NewQueue : Queue Int String) = (.error .emptyDequeue, NewQueue) ∧
    Peek (NewQueue : Queue Int String) = (.error .emptyPeek, NewQueue) :=
  ⟨by decide,
   (fail_fast (NewQueue : Queue Int String) 0 "").2.2.1 (by decide),
   (fail_fast (NewQueue : Queue Int String) 0 "").2.2.2.1 (by decide)⟩

/-- C9 (the `Try` forms on an empty queue).  On an empty queue, new or drained,
`TryDequeue` and `TryPeek` each return the zero key, the zero value and `false`,
and leave the queue empty and as it was. -/
theorem try_on_empty [Inhabited K] [Inhabited V] (q : Queue K V)
    (he : IsEmpty q = true) :
    TryDequeue q = (.ok (default, default, false), q) ∧
    TryPeek q = (.ok (default, default, false), q) ∧
    IsEmpty (TryDequeue q).2 = true ∧ IsEmpty (TryPeek q).2 = true := by
  have := isEmpty_true q he
  subst this
  rw [TryDequeue_nil, TryPeek_nil]
  exact ⟨rfl, rfl, rfl, rfl⟩

theorem try_on_empty_witness :
    IsEmpty (drain 2 (Enqueue (Enqueue (NewQueue : Queue Int String)
      5 "five").2 3 "three").2).2 = true ∧
    TryDequeue (drain 2 (Enqueue (Enqueue (NewQueue : Queue Int String)
      5 "five").2 3 "three").2).2
      = (.ok (0, "", false), (drain 2 (Enqueue (Enqueue (NewQueue : Queue Int String)
        5 "five").2 3 "three").2).2) ∧
    TryPeek (drain 2 (Enqueue (Enqueue (NewQueue : Queue Int String)
      5 "five").2 3 "three").2).2
      = (.ok (0, "", false), (drain 2 (Enqueue (Enqueue (NewQueue : Queue Int String)
        5 "five").2 3 "three").2).2) :=
  ⟨by decide,
   (try_on_empty (drain 2 (Enqueue (Enqueue (NewQueue : Queue Int String)
      5 "five").2 3 "three").2).2 (by decide)).1,
   (try_on_empty (drain 2 (Enqueue (Enqueue (NewQueue : Queue Int String)
      5 "five").2 3 "three").2).2 (by decide)).2.1⟩

/-- C10 (the `Try` forms agree with the fail-fast forms).  On a non-empty queue
`TryDequeue` returns `(k, v, true)` for the `(k, v)` that `Dequeue` returns and
leaves the queue as `Dequeue` does, and `TryPeek` returns `(k, v, true)` for the
`(k, v)` that `Peek` returns.  On every queue both return, and the boolean they
return is `true` if and only if the queue was non-empty. -/
theorem try_agrees [Inhabited K] [Inhabited V] (q : Queue K V) :
    (IsEmpty q = false → ∃ (k : K) (v : V) (q1 : Queue K V),
      Dequeue q = (.ok (k, v), q1) ∧ TryDequeue q = (.ok (k, v, true), q1)) ∧
    (IsEmpty q = false → ∃ (k : K) (v : V) (q1 : Queue K V),
      Peek q = (.ok (k, v), q1) ∧ TryPeek q = (.ok (k, v, true), q1)) ∧
    (∃ (k : K) (v : V) (b : Bool), (TryDequeue q).1 = .ok (k, v, b) ∧
      (b = true ↔ IsEmpty q = false)) ∧
    (∃ (k : K) (v : V) (b : Bool), (TryPeek q).1 = .ok (k, v, b) ∧
      (b = true ↔ IsEmpty q = false)) := by
  cases q with
  | mk items =>
    cases items with
    | nil =>
      refine ⟨?_, ?_, ?_, ?_⟩
      · intro h; simp [IsEmpty] at h
      · intro h; simp [IsEmpty] at h
      · rw [TryDequeue_nil]; exact ⟨default, default, false, rfl, by simp [IsEmpty]⟩
      · rw [TryPeek_nil]; exact ⟨default, default, false, rfl, by simp [IsEmpty]⟩
    | cons x rest =>
      obtain ⟨a, ha, -⟩ := Dequeue_ok x rest
      refine ⟨?_, ?_, ?_, ?_⟩
      · intro _
        exact ⟨x.Key, x.Value, { items := a }, ha, TryDequeue_cons x rest a ha⟩
      · intro _
        exact ⟨x.Key, x.Value, _, Peek_cons x rest, TryPeek_cons x rest⟩
      · rw [TryDequeue_cons x rest a ha]
        exact ⟨x.Key, x.Value, true, rfl, by simp [IsEmpty]⟩
      · rw [TryPeek_cons]
        exact ⟨x.Key, x.Value, true, rfl, by simp [IsEmpty]⟩

theorem try_agrees_witness :
    IsEmpty ({ items := [⟨3, "three"⟩, ⟨5, "five"⟩, ⟨7, "seven"⟩] } : Queue Int String)
      = false ∧
    ∃ (k : Int) (v : String) (q1 : Queue Int String),
      Dequeue ({ items := [⟨3, "three"⟩, ⟨5, "five"⟩, ⟨7, "seven"⟩] } : Queue Int String)
        = (.ok (k, v), q1) ∧
      TryDequeue ({ items := [⟨3, "three"⟩, ⟨5, "five"⟩, ⟨7, "seven"⟩] } : Queue Int String)
        = (.ok (k, v, true), q1) :=
  ⟨by decide,
   (try_agrees ({ items := [⟨3, "three"⟩, ⟨5, "five"⟩, ⟨7, "seven"⟩] }
    : Queue Int String)).1 (by decide)⟩

end AnyOrder

section AnyOrder

variable [LE K] [LT K] [DecidableRel (LE.le : K → K → Prop)]
  [DecidableRel (LT.lt : K → K → Prop)]

/-- C11 (`Dequeue` on a single entry).  On a queue that holds exactly one entry
`(k, v)`, `Dequeue` returns `(k, v)` and leaves the queue empty, `Count() = 0`;
it returns, so no read was outside the array; and the result is the same
whatever stands in the place of `siftDown`, so no sift-down takes part in it. -/
theorem Dequeue_single (k : K) (v : V)
    (sd : Queue K V → Nat → Except Fault Unit × Queue K V) :
    Dequeue ({ items := [{ Key := k, Value := v }] } : Queue K V)
      = (.ok (k, v), { items := [] }) ∧
    Count (Dequeue ({ items := [{ Key := k, Value := v }] } : Queue K V)).2 = 0 ∧
    (∀ q : Queue K V, DequeueWith siftDown q = Dequeue q) ∧
    DequeueWith sd ({ items := [{ Key := k, Value := v }] } : Queue K V)
      = (.ok (k, v), { items := [] }) := by
  have h : ∀ sd1 : Queue K V → Nat → Except Fault Unit × Queue K V,
      DequeueWith sd1 ({ items := [{ Key := k, Value := v }] } : Queue K V)
        = (.ok (k, v), { items := [] }) := by
    intro sd1
    simp [DequeueWith, readAt]
  have h1 := h siftDown
  rw [DequeueWith_siftDown] at h1
  exact ⟨h1, by rw [h1]; rfl, fun _ => rfl, h sd⟩

end AnyOrder

/-- C12 (no stability among equal keys).  The entries `(5, a)`, `(5, b)`, `(5, c)`
enqueued in that order are dequeued as `(5, a)`, `(5, c)`, `(5, b)`: neither in
the order of insertion nor in its reverse. -/
theorem no_stability :
    ∃ l out : List (Int × String),
      (∀ kv ∈ l, kv.1 = 5) ∧
      drain l.length (enqueueAll NewQueue l).2 = (.ok out, { items := [] }) ∧
      l = [(5, "a"), (5, "b"), (5, "c")] ∧
      out = [(5, "a"), (5, "c"), (5, "b")] ∧ out ≠ l ∧ out ≠ l.reverse :=
  ⟨[(5, "a"), (5, "b"), (5, "c")], [(5, "a"), (5, "c"), (5, "b")],
    by decide, rfl, rfl, rfl, by decide, by decide⟩

/-- C15 (sift-down, self wins ties).  For every array and every index `i` of the
array, `i < len`: if each child of `i` that is inside the array has a key `>=`
the key at `i`, then one iteration of `siftDown` chooses `i` itself and
`siftDown(i)` returns with the array unchanged.  A child with a key equal to the
key at `i` is such a child, and a child outside the array puts no condition. -/
theorem siftDown_self_wins [LinearOrder K] (q : Queue K V) (i : Nat)
    (hi : i < q.items.length)
    (hl : ∀ (h : 2 * i + 1 < q.items.length), q.items[i].Key ≤ q.items[2 * i + 1].Key)
    (hr : ∀ (h : 2 * i + 2 < q.items.length), q.items[i].Key ≤ q.items[2 * i + 2].Key) :
    selectMin q.items q.items.length i = .ok i ∧ siftDown q i = (.ok (), q) := by
  have hsel := selectMin_self q.items i hi hl hr
  refine ⟨hsel, ?_⟩
  simp only [siftDown]
  rw [siftDownLoop_stay _ _ _ _ hsel]

theorem siftDown_self_wins_witness :
    0 < ({ items := [⟨5, "a"⟩, ⟨5, "b"⟩, ⟨7, "c"⟩] } : Queue Int String).items.length ∧
    selectMin ({ items := [⟨5, "a"⟩, ⟨5, "b"⟩, ⟨7, "c"⟩] } : Queue Int String).items
      ({ items := [⟨5, "a"⟩, ⟨5, "b"⟩, ⟨7, "c"⟩] } : Queue Int String).items.length 0 = .ok 0 ∧
    siftDown ({ items := [⟨5, "a"⟩, ⟨5, "b"⟩, ⟨7, "c"⟩] } : Queue Int String) 0
      = (.ok (), { items := [⟨5, "a"⟩, ⟨5, "b"⟩, ⟨7, "c"⟩] }) :=
  ⟨by decide,
   siftDown_self_wins ({ items := [⟨5, "a"⟩, ⟨5, "b"⟩, ⟨7, "c"⟩] } : Queue Int String) 0
    (by decide) (by intro _; simp) (by intro _; simp)⟩

section AnyOrder

variable [LE K] [LT K] [DecidableRel (LE.le : K → K → Prop)]
  [DecidableRel (LT.lt : K → K → Prop)]

/-- C17 (index safety).  Every index expression of the code is a checked read in
the model, and a read outside the array is the panic `indexOutOfRange`.  For
every queue, whatever the order on the keys: `Enqueue` returns; on a non-empty
queue `Dequeue`, `TryDequeue`, `Peek` and `TryPeek` return; `siftUp(i)` and
`siftDown(i)` return for every index `i` inside the array; the parent index of
an index inside the array is inside the array; the index that an iteration of
`siftDown` at an index inside the array chooses is inside the array; and when
such an index has no child inside the array, the iteration chooses `i` without a
read. -/
theorem index_safety [Inhabited K] [Inhabited V] (q : Queue K V) (key : K) (value : V) :
    (Enqueue q key value).1 = .ok () ∧
    (IsEmpty q = false →
      (∃ r, (Dequeue q).1 = .ok r) ∧ (∃ r, (TryDequeue q).1 = .ok r) ∧
      (∃ r, (Peek q).1 = .ok r) ∧ (∃ r, (TryPeek q).1 = .ok r)) ∧
    (∀ i, i < q.items.length → (siftUp q i).1 = .ok ()) ∧
    (∀ i, i < q.items.length → (siftDown q i).1 = .ok ()) ∧
    (∀ i, i < q.items.length → (i - 1) / 2 < q.items.length) ∧
    (∀ i, i < q.items.length → ∃ m, selectMin q.items q.items.length i = .ok m ∧
      m < q.items.length) ∧
    (∀ i, i < q.items.length → q.items.length ≤ 2 * i + 1 →
      selectMin q.items q.items.length i = .ok i) := by
  refine ⟨?_, ?_, ?_, ?_, ?_, ?_, ?_⟩
  · obtain ⟨a, ha, -⟩ := Enqueue_ok q key value
    rw [ha]
  · intro hne
    obtain ⟨x, rest, rfl⟩ := isEmpty_false q hne
    obtain ⟨a, ha, -⟩ := Dequeue_ok x rest
    refine ⟨⟨_, by rw [ha]⟩, ⟨_, by rw [TryDequeue_cons x rest a ha]⟩,
      ⟨_, by rw [Peek_cons]⟩, ⟨_, by rw [TryPeek_cons]⟩⟩
  · intro i hi
    obtain ⟨a, ha, -⟩ := siftUp_ok q i hi
    rw [ha]
  · intro i hi
    obtain ⟨a, ha, -⟩ := siftDown_ok q i hi
    rw [ha]
  · intro i hi
    omega
  · intro i hi
    obtain ⟨m, hm, hlt, -⟩ := selectMin_ok q.items i hi
    exact ⟨m, hm, hlt⟩
  · intro i hi hleaf
    exact selectMin_out _ _ _ hi hleaf

theorem index_safety_witness :
    IsEmpty ({ items := [⟨3, "three"⟩, ⟨5, "five"⟩, ⟨7, "seven"⟩] } : Queue Int String)
      = false ∧
    (∃ r, (Dequeue ({ items := [⟨3, "three"⟩, ⟨5, "five"⟩, ⟨7, "seven"⟩] }
      : Queue Int String)).1 = .ok r) ∧
    (∃ r, (TryDequeue ({ items := [⟨3, "three"⟩, ⟨5, "five"⟩, ⟨7, "seven"⟩] }
      : Queue Int String)).1 = .ok r) ∧
    (∃ r, (Peek ({ items := [⟨3, "three"⟩, ⟨5, "five"⟩, ⟨7, "seven"⟩] }
      : Queue Int String)).1 = .ok r) ∧
    (∃ r, (TryPeek ({ items := [⟨3, "three"⟩, ⟨5, "five"⟩, ⟨7, "seven"⟩] }
      : Queue Int String)).1 = .ok r) :=
  ⟨by decide,
   (index_safety ({ items := [⟨3, "three"⟩, ⟨5, "five"⟩, ⟨7, "seven"⟩] }
    : Queue Int String) 1 "one").2.1 (by decide)⟩

/-- C18 (termination).  For every array and every start index `i` inside it: the
loop of `siftUp` returns on every budget of at least `i` iterations and the loop
of `siftDown` on every budget of at least `len - i` iterations, each with the
result of the smallest such budget; the index of `siftUp` goes down, `(i - 1) / 2
< i`, and the index that `siftDown` goes on with is above `i` and inside the
array.  So `Enqueue` returns on every input, and `Dequeue` never uses up a
budget and returns on every non-empty queue. -/
theorem termination (q : Queue K V) (key : K) (value : V) :
    (∀ i fuel, i < q.items.length → i ≤ fuel →
      ∃ r, siftUpLoop fuel q.items i = (.ok (), r) ∧
        siftUpLoop i q.items i = (.ok (), r)) ∧
    (∀ i fuel, i < q.items.length → q.items.length - i ≤ fuel →
      ∃ r, siftDownLoop fuel q.items q.items.length i = (.ok (), r) ∧
        siftDownLoop (q.items.length - i) q.items q.items.length i = (.ok (), r)) ∧
    (∀ i, 0 < i → (i - 1) / 2 < i) ∧
    (∀ i, i < q.items.length → ∃ m, selectMin q.items q.items.length i = .ok m ∧
      (m = i ∨ (i < m ∧ m < q.items.length))) ∧
    (Enqueue q key value).1 = .ok () ∧
    (Dequeue q).1 ≠ .error .outOfFuel ∧
    (IsEmpty q = false → ∃ r, (Dequeue q).1 = .ok r) := by
  have hdeq : IsEmpty q = false → ∃ r, (Dequeue q).1 = .ok r := by
    intro hne
    obtain ⟨x, rest, rfl⟩ := isEmpty_false q hne
    obtain ⟨a, ha, -⟩ := Dequeue_ok x rest
    exact ⟨_, by rw [ha]⟩
  refine ⟨?_, ?_, ?_, ?_, ?_, ?_, hdeq⟩
  · intro i fuel hi hf
    obtain ⟨r, hr, -⟩ := siftUpLoop_ok fuel q.items i hi hf
    exact ⟨r, hr, by rw [siftUpLoop_fuel i fuel q.items i hi le_rfl hf, hr]⟩
  · intro i fuel hi hf
    obtain ⟨r, hr, -⟩ := siftDownLoop_ok fuel q.items i hi hf
    exact ⟨r, hr, by rw [siftDownLoop_fuel _ fuel q.items i hi le_rfl hf, hr]⟩
  · intro i h0
    omega
  · intro i hi
    obtain ⟨m, hm, hlt, hc⟩ := selectMin_ok q.items i hi
    exact ⟨m, hm, by omega⟩
  · obtain ⟨a, ha, -⟩ := Enqueue_ok q key value
    rw [ha]
  · cases hq : IsEmpty q with
    | true =>
      have := isEmpty_true q hq
      subst this
      rw [Dequeue_nil]
      simp
    | false =>
      obtain ⟨r, hr⟩ := hdeq hq
      rw [hr]
      simp

theorem termination_witness :
    2 < ({ items := [⟨3, "three"⟩, ⟨5, "five"⟩, ⟨1, "one"⟩] } : Queue Int String).items.length ∧
    2 ≤ 7 ∧
    ∃ r, siftUpLoop 7 ({ items := [⟨3, "three"⟩, ⟨5, "five"⟩, ⟨1, "one"⟩] }
        : Queue Int String).items 2 = (.ok (), r) ∧
      siftUpLoop 2 ({ items := [⟨3, "three"⟩, ⟨5, "five"⟩, ⟨1, "one"⟩] }
        : Queue Int String).items 2 = (.ok (), r) :=
  ⟨by decide, by decide,
   (termination ({ items := [⟨3, "three"⟩, ⟨5, "five"⟩, ⟨1, "one"⟩] } : Queue Int String)
    0 "").1 2 7 (by decide) (by decide)⟩

end AnyOrder

/-- C14 (sift-up reference behaviour).  For every queue of size `n` and every
`(k, v)`, `Enqueue(k, v)` returns and the array afterwards is the array of the
reference `EnqueueRef`: the new entry stands at `j`, the position `t` steps up
the ancestor chain `n`, `parent(n)`, ... of the new leaf, where `j` is the first
chain position that is the root or whose parent has a key `<= k`; every chain
position below `j` holds the entry that was at its parent, whose key is `> k`;
and every index that is not one of these chain positions holds the entry it
held before. -/
theorem Enqueue_reference [LinearOrder K] (q : Queue K V) (k : K) (v : V) :
    ∃ (t : Nat) (r : List (item K V)),
      Enqueue q k v = (.ok (), { items := r }) ∧
      r = EnqueueRef q.items k v ∧ r.length = q.items.length + 1 ∧
      stopDepth q.items k q.items.length q.items.length = t ∧
      (ancestor q.items.length t = 0 ∨
        ∃ p, q.items[parent (ancestor q.items.length t)]? = some p ∧ p.Key ≤ k) ∧
      (∀ s, s < t → 0 < ancestor q.items.length s ∧
        ∃ p, q.items[parent (ancestor q.items.length s)]? = some p ∧ k < p.Key ∧
          r[ancestor q.items.length s]? = some p) ∧
      r[ancestor q.items.length t]? = some { Key := k, Value := v } ∧
      (∀ m, (∀ s, s ≤ t → m ≠ ancestor q.items.length s) → r[m]? = q.items[m]?) := by
  obtain ⟨t, r, hr, hlen, hstop, hmoved, hat, hother⟩ := Enqueue_chain q k v
  have heq := Enqueue_eq_ref q k v
  rw [hr] at heq
  have hsd : stopDepth q.items k q.items.length q.items.length = t :=
    stopDepth_eq q.items k t _ _
      (ancestor_depth_le q.items.length t (fun u hu => (hmoved u hu).1)) hstop
      (fun s hs => by
        obtain ⟨h1, p, h2, h3, -⟩ := hmoved s hs
        exact ⟨h1, p, h2, h3⟩)
  exact ⟨t, r, hr, heq, hlen, hsd, hstop, hmoved, hat, hother⟩

/-- The scenario of C14 on the heap 1, 2, 3, 4, 5 and the new key 0: the new
entry goes from index 5 over index 2 to the root, and the entries that were at
the indices 2 and 0 are one step further down that chain. -/
theorem Enqueue_reference_test_data :
    (Enqueue ({ items := [⟨1, "a"⟩, ⟨2, "b"⟩, ⟨3, "c"⟩, ⟨4, "d"⟩, ⟨5, "e"⟩] }
      : Queue Int String) 0 "z").2.items
      = [⟨0, "z"⟩, ⟨2, "b"⟩, ⟨1, "a"⟩, ⟨4, "d"⟩, ⟨5, "e"⟩, ⟨3, "c"⟩] ∧
    EnqueueRef ([⟨1, "a"⟩, ⟨2, "b"⟩, ⟨3, "c"⟩, ⟨4, "d"⟩, ⟨5, "e"⟩]
      : List (item Int String)) 0 "z"
      = [⟨0, "z"⟩, ⟨2, "b"⟩, ⟨1, "a"⟩, ⟨4, "d"⟩, ⟨5, "e"⟩, ⟨3, "c"⟩] := by
  decide

/-- C19 (effect of `Enqueue` on the minimum).  On a non-empty queue whose array
has the heap property and whose root is `(k0, v0)`: after `Enqueue(k, v)`, `Peek`
returns `(k, v)` if `k < k0`, and otherwise it returns `(k0, v0)` and index 0
holds the entry it held before; a key equal to `k0` is such a key. -/
theorem Enqueue_min [LinearOrder K] (q : Queue K V) (hne : IsEmpty q = false)
    (hh : HeapInv q.items) (k : K) (v : V) :
    ∃ (k0 : K) (v0 : V), Peek q = (.ok (k0, v0), q) ∧
      (k < k0 → (Peek (Enqueue q k v).2).1 = .ok (k, v)) ∧
      (¬ k < k0 → (Peek (Enqueue q k v).2).1 = .ok (k0, v0) ∧
        (Enqueue q k v).2.items[0]? = q.items[0]?) := by
  obtain ⟨x0, rest, rfl⟩ := isEmpty_false q hne
  obtain ⟨h1, h2⟩ := Enqueue_root x0 rest hh k v
  refine ⟨x0.Key, x0.Value, Peek_cons x0 rest, ?_, ?_⟩
  · intro hlt
    rw [Peek_of_head _ _ (h1 hlt)]
  · intro hnlt
    rw [Peek_of_head _ _ (h2 hnlt)]
    exact ⟨rfl, by rw [h2 hnlt]; simp⟩

theorem Enqueue_min_witness :
    ∃ (k0 : Int) (v0 : String),
      Peek ({ items := [⟨3, "three"⟩, ⟨5, "five"⟩, ⟨7, "seven"⟩] } : Queue Int String)
        = (.ok (k0, v0), { items := [⟨3, "three"⟩, ⟨5, "five"⟩, ⟨7, "seven"⟩] }) ∧
      ((3 : Int) < k0 → (Peek (Enqueue ({ items := [⟨3, "three"⟩, ⟨5, "five"⟩, ⟨7, "seven"⟩] }
        : Queue Int String) 3 "new").2).1 = .ok (3, "new")) ∧
      (¬ (3 : Int) < k0 →
        (Peek (Enqueue ({ items := [⟨3, "three"⟩, ⟨5, "five"⟩, ⟨7, "seven"⟩] }
          : Queue Int String) 3 "new").2).1 = .ok (k0, v0) ∧
        (Enqueue ({ items := [⟨3, "three"⟩, ⟨5, "five"⟩, ⟨7, "seven"⟩] }
          : Queue Int String) 3 "new").2.items[0]?
          = ({ items := [⟨3, "three"⟩, ⟨5, "five"⟩, ⟨7, "seven"⟩] }
            : Queue Int String).items[0]?) :=
  Enqueue_min ({ items := [⟨3, "three"⟩, ⟨5, "five"⟩, ⟨7, "seven"⟩] } : Queue Int String)
    (by decide) (by unfold HeapInv; decide) 3 "new"

/-- C16 (sift-down, left wins ties with right).  For every array and index `i`
whose two children are both inside the array and have equal keys `<` the key at
`i`: the first iteration of `siftDown(i)` chooses the left child, `siftDown(i)`
returns, index `i` then holds the entry that was at `2 * i + 1`, and every index
`c` in the subtree of the right child (some number `t` of `parent` steps leads
from `c` to `2 * i + 2`) holds the entry it held before.
On every array, an iteration chooses the right child only if its key is `<` the
key of the left child. -/
theorem siftDown_left_wins [LinearOrder K] (q : Queue K V) (i : Nat)
    (h2 : 2 * i + 2 < q.items.length)
    (heq : q.items[2 * i + 1].Key = q.items[2 * i + 2].Key)
    (hlt : q.items[2 * i + 1].Key < q.items[i].Key) :
    selectMin q.items q.items.length i = .ok (2 * i + 1) ∧
    (∃ r, siftDown q i = (.ok (), { items := r }) ∧ r.length = q.items.length ∧
      r[i]? = some q.items[2 * i + 1] ∧
      ∀ c t, ancestor c t = 2 * i + 2 → r[c]? = q.items[c]?) ∧
    (∀ (items : List (item K V)) (j : Nat),
      selectMin items items.length j = .ok (2 * j + 2) →
      ∃ (_ : 2 * j + 2 < items.length), items[2 * j + 2].Key < items[2 * j + 1].Key) :=
  ⟨selectMin_left_tie q.items i h2 heq hlt, siftDown_left_tie q.items i h2 heq hlt,
    fun items j h => selectMin_right items j h⟩

theorem siftDown_left_wins_witness :
    selectMin ({ items := [⟨9, "a"⟩, ⟨5, "b"⟩, ⟨5, "c"⟩, ⟨6, "d"⟩, ⟨7, "e"⟩, ⟨8, "f"⟩,
      ⟨10, "g"⟩] } : Queue Int String).items 7 0 = .ok 1 ∧
    siftDown ({ items := [⟨9, "a"⟩, ⟨5, "b"⟩, ⟨5, "c"⟩, ⟨6, "d"⟩, ⟨7, "e"⟩, ⟨8, "f"⟩,
      ⟨10, "g"⟩] } : Queue Int String) 0
      = (.ok (), { items := [⟨5, "b"⟩, ⟨6, "d"⟩, ⟨5, "c"⟩, ⟨9, "a"⟩, ⟨7, "e"⟩, ⟨8, "f"⟩,
        ⟨10, "g"⟩] }) :=
  ⟨(siftDown_left_wins ({ items := [⟨9, "a"⟩, ⟨5, "b"⟩, ⟨5, "c"⟩, ⟨6, "d"⟩, ⟨7, "e"⟩,
      ⟨8, "f"⟩, ⟨10, "g"⟩] } : Queue Int String) 0 (by decide) (by decide) (by decide)).1,
   rfl⟩

/-- C13, as stated, fails for `float64` keys with a NaN among them: after
`Enqueue(3, a)`, `Enqueue(NaN, b)`, `Enqueue(5, c)` the array does not have the
heap property, and draining returns the keys 5, NaN, 3, which are not in
non-decreasing order: 5 comes out before 3. -/
theorem float_nan_counterexample :
    ¬ HeapInv (enqueueAll (NewQueue : Queue (GoFloat Int) String)
      [(.num 3, "a"), (.nan, "b"), (.num 5, "c")]).2.items ∧
    (drain 3 (enqueueAll (NewQueue : Queue (GoFloat Int) String)
      [(.num 3, "a"), (.nan, "b"), (.num 5, "c")]).2).1
      = .ok [(.num 5, "c"), (.nan, "b"), (.num 3, "a")] ∧
    ¬ List.Sorted (fun a b : GoFloat Int => a ≤ b) [.num 5, .nan, .num 3] ∧
    (GoFloat.num 3 : GoFloat Int) < GoFloat.num 5 := by
  refine ⟨by unfold HeapInv; decide, rfl, by unfold List.Sorted; decide, by decide⟩

/-- C13, amended (`float64` keys other than NaN).  On a queue of `float64` keys
none of which is NaN and whose array has the heap property, `Enqueue` of a key
that is not NaN and `Dequeue` leave an array with the heap property and without
a NaN key; and for every list of pairs without a NaN key, enqueuing the list
into a new queue returns and leaves a heap, and draining it returns the keys in
non-decreasing order, a rearrangement of the enqueued keys. -/
theorem float_keys_without_nan {E : Type} [LinearOrder E] (q : Queue (GoFloat E) V)
    (hq : ∀ x ∈ q.items, x.Key ≠ GoFloat.nan) (hh : HeapInv q.items)
    (k : GoFloat E) (hk : k ≠ GoFloat.nan) (v : V)
    (l : List (GoFloat E × V)) (hl : ∀ kv ∈ l, kv.1 ≠ GoFloat.nan) :
    (HeapInv (Enqueue q k v).2.items ∧
      ∀ x ∈ (Enqueue q k v).2.items, x.Key ≠ GoFloat.nan) ∧
    (HeapInv (Dequeue q).2.items ∧
      ∀ x ∈ (Dequeue q).2.items, x.Key ≠ GoFloat.nan) ∧
    ∃ (q1 : Queue (GoFloat E) V) (out : List (GoFloat E × V)),
      enqueueAll NewQueue l = (.ok (), q1) ∧ HeapInv q1.items ∧
      drain (Count q1) q1 = (.ok out, { items := [] }) ∧
      List.Sorted (fun a b => a ≤ b) (out.map Prod.fst) ∧
      (out.map Prod.fst).Perm (l.map Prod.fst) :=
  ⟨float_Enqueue_heap q hq hh k hk v, float_Dequeue_heap q hq hh, float_sorted l hl⟩

theorem float_keys_without_nan_witness :
    HeapInv (Enqueue ({ items := [⟨.num 1, "a"⟩, ⟨.num 2, "b"⟩] }
      : Queue (GoFloat Int) String) (.num 0) "z").2.items ∧
    HeapInv (Dequeue ({ items := [⟨.num 1, "a"⟩, ⟨.num 2, "b"⟩] }
      : Queue (GoFloat Int) String)).2.items :=
  ⟨(float_keys_without_nan ({ items := [⟨.num 1, "a"⟩, ⟨.num 2, "b"⟩] }
      : Queue (GoFloat Int) String) (by decide) (by unfold HeapInv; decide)
      (.num 0) (by decide) "z" [(.num 3, "a"), (.num 1, "b")] (by decide)).1.1,
   (float_keys_without_nan ({ items := [⟨.num 1, "a"⟩, ⟨.num 2, "b"⟩] }
      : Queue (GoFloat Int) String) (by decide) (by unfold HeapInv; decide)
      (.num 0) (by decide) "z" [(.num 3, "a"), (.num 1, "b")] (by decide)).2.1.1⟩

/-- C20 (round trip for a new strict minimum).  On a queue whose array has the
heap property and whose keys are pairwise distinct, for `(k, v)` with `k` below
every stored key: `Enqueue(k, v)` returns, the `Dequeue` that follows returns
exactly `(k, v)`, and the queue afterwards is the queue from before the
`Enqueue`, the backing array the same at every position. -/
theorem Enqueue_Dequeue_round_trip [LinearOrder K] (q : Queue K V) (hh : HeapInv q.items)
    (hd : (q.items.map item.Key).Nodup) (k : K) (v : V)
    (hk : ∀ x ∈ q.items, k < x.Key) :
    ∃ q1 : Queue K V, Enqueue q k v = (.ok (), q1) ∧ Dequeue q1 = (.ok (k, v), q) ∧
      (Dequeue (Enqueue q k v).2).2.items = q.items := by
  obtain ⟨q1, h1, h2⟩ := Enqueue_Dequeue_restore q hh hd k v hk
  exact ⟨q1, h1, h2, by rw [h1, h2]⟩

theorem Enqueue_Dequeue_round_trip_witness :
    ∃ q1 : Queue Int String,
      Enqueue ({ items := [⟨1, "a"⟩, ⟨2, "b"⟩, ⟨3, "c"⟩, ⟨4, "d"⟩, ⟨5, "e"⟩] }
        : Queue Int String) 0 "z" = (.ok (), q1) ∧
      Dequeue q1 = (.ok (0, "z"),
        { items := [⟨1, "a"⟩, ⟨2, "b"⟩, ⟨3, "c"⟩, ⟨4, "d"⟩, ⟨5, "e"⟩] }) ∧
      (Dequeue (Enqueue ({ items := [⟨1, "a"⟩, ⟨2, "b"⟩, ⟨3, "c"⟩, ⟨4, "d"⟩, ⟨5, "e"⟩] }
        : Queue Int String) 0 "z").2).2.items
        = [⟨1, "a"⟩, ⟨2, "b"⟩, ⟨3, "c"⟩, ⟨4, "d"⟩, ⟨5, "e"⟩] :=
  Enqueue_Dequeue_round_trip
    ({ items := [⟨1, "a"⟩, ⟨2, "b"⟩, ⟨3, "c"⟩, ⟨4, "d"⟩, ⟨5, "e"⟩] } : Queue Int String)
    (by unfold HeapInv; decide) (by decide) 0 "z" (by decide)

/-- With two equal keys the round trip of C20 can change the array: on the heap
`(1, a)`, `(1, b)`, `(1, c)`, `Enqueue(0, z)` and `Dequeue` leave `(1, b)`,
`(1, a)`, `(1, c)`. -/
theorem round_trip_equal_keys :
    (Dequeue (Enqueue ({ items := [⟨1, "a"⟩, ⟨1, "b"⟩, ⟨1, "c"⟩] } : Queue Int String)
      0 "z").2).2.items = [⟨1, "b"⟩, ⟨1, "a"⟩, ⟨1, "c"⟩] := by
  decide

end Claims

end pq
